import Mathlib

/-!
# ezlang: the PO catalog parser and writer (`pkg/po/po.go`)

A shallow embedding of the line-oriented PO parser (`parseHeader`, `parseEntries`,
`parseComment`, ...) and of the rewriting writer (`WritePOFile`,
`writeTranslatedString`, `splitIntoChunks`, `escapeString`), followed by the splitting
of long texts in the translation client (`pkg/translation/translation.go`).

Modelling conventions.

* A Go `string` is modelled by the list of its Unicode code points (`Str`), i.e. the
  strings considered are well-formed UTF-8 texts.  `len(s)` is the UTF-8 byte length
  `byteLen s`.  Positions returned by `strings.Index`/`strings.LastIndex` count code
  points; every Go slice expression that cuts at such a position is modelled by the
  corresponding `take`/`drop`, which denotes the same text.
* A file is the list of its lines, as produced by the `bufio.Scanner` loop of
  `ReadPoFile`; the output of the writer is the list of lines handed to
  `Fprintln`/`Fprintf`, in order.  I/O failures are outside the model.
* The translation capability `tc.TranslateText(text, source, target)` is a function
  returning `some translated` or `none` (failure).
-/

namespace Po

/-- A Go string: its sequence of code points. -/
abbrev Str := List Char

/-! ## The parts of the Go `strings` and `unicode` packages that the code uses -/

/-- Go `len(s)`: the number of bytes of the UTF-8 encoding. -/
def byteLen : Str → Nat
  | [] => 0
  | c :: s => c.utf8Size + byteLen s

/-- Go `s[n:]` for a byte offset `n` that falls on a code point boundary. -/
def byteDrop : Nat → Str → Str
  | 0, s => s
  | _ + 1, [] => []
  | n + 1, c :: s => byteDrop (n + 1 - c.utf8Size) s

/-- Go `unicode.IsSpace`. -/
def isSpace (c : Char) : Bool :=
  c.toNat == 0x09 || c.toNat == 0x0A || c.toNat == 0x0B || c.toNat == 0x0C ||
  c.toNat == 0x0D || c.toNat == 0x20 || c.toNat == 0x85 || c.toNat == 0xA0 ||
  c.toNat == 0x1680 || (0x2000 ≤ c.toNat && c.toNat ≤ 0x200A) ||
  c.toNat == 0x2028 || c.toNat == 0x2029 || c.toNat == 0x202F ||
  c.toNat == 0x205F || c.toNat == 0x3000

/-- Go `strings.HasPrefix(s, p)`. -/
def startsWith (s p : Str) : Bool := p.isPrefixOf s

/-- Go `strings.TrimPrefix(s, p)`. -/
def trimPrefix (s p : Str) : Str := if startsWith s p then s.drop p.length else s

/-- Go `strings.TrimSpace(s)`. -/
def trimSpace (s : Str) : Str :=
  ((s.dropWhile isSpace).reverse.dropWhile isSpace).reverse

/-- Go `strings.Contains(s, sub)`. -/
def contains : Str → Str → Bool
  | [], sub => sub.isEmpty
  | c :: s, sub => startsWith (c :: s) sub || contains s sub

/-- Go `strings.Index(s, x)` for a one-byte needle; `none` stands for `-1`. -/
def index : Str → Char → Option Nat
  | [], _ => none
  | c :: s, x => if c = x then some 0 else (index s x).map (· + 1)

/-- Go `strings.LastIndex(s, x)` for a one-byte needle; `none` stands for `-1`. -/
def lastIndex : Str → Char → Option Nat
  | [], _ => none
  | c :: s, x =>
    match lastIndex s x with
    | some k => some (k + 1)
    | none => if c = x then some 0 else none

/-- The loop of `strings.Split(s, sep)` for a one-byte separator, `cur` being the
piece under construction. -/
def splitGo (sep : Char) (cur : Str) : Str → List Str
  | [] => [cur]
  | c :: s => if c = sep then cur :: splitGo sep [] s else splitGo sep (cur ++ [c]) s

/-- Go `strings.Split(s, sep)` for a one-byte separator. -/
def split (s : Str) (sep : Char) : List Str := splitGo sep [] s

/-- Go `strings.Join(parts, sep)`. -/
def join (parts : List Str) (sep : Str) : Str := sep.intercalate parts

/-- The loop of `strings.Fields`, `cur` being the field under construction. -/
def fieldsGo (cur : Str) : Str → List Str
  | [] => if cur = [] then [] else [cur]
  | c :: s =>
    if isSpace c then (if cur = [] then fieldsGo [] s else cur :: fieldsGo [] s)
    else fieldsGo (cur ++ [c]) s

/-- Go `strings.Fields(s)`: the maximal runs of non-space code points. -/
def fields (s : Str) : List Str := fieldsGo [] s

/-- Go `strings.ReplaceAll(s, old, new)` for a one-byte `old`. -/
def replaceAll : Str → Char → Str → Str
  | [], _, _ => []
  | c :: s, old, new => (if c = old then new else [c]) ++ replaceAll s old new

/-- Go `strings.Trim(s, cutset)` for a one-byte cutset. -/
def trimChar (s : Str) (x : Char) : Str :=
  ((s.dropWhile (· == x)).reverse.dropWhile (· == x)).reverse

/-! ## Data model -/

/-- The comment taxonomy `CommentType`. -/
inductive CommentType where
  | TranslatorComment
  | ExtractedComment
  | ReferenceComment
  | FlagComment
  | PreviousComment
  deriving DecidableEq, Repr

/-- The Go struct `Comment`; its field `Type` is named `Kind` here. -/
structure Comment where
  Kind : CommentType
  Content : Str
  deriving DecidableEq, Repr

/-- The Go struct `Entry`; the zero value `Entry{}` is `{}`. -/
structure Entry where
  Comments : List Comment := []
  MsgContext : Str := []
  MsgID : Str := []
  MsgIDPlural : Str := []
  MsgStr : Str := []
  MsgStrPlural : List Str := []
  IsFuzzy : Bool := false
  RawLines : List Str := []
  deriving DecidableEq, Repr

/-- The Go struct `Header`; the map `Metadata` is kept as an association list with
unique keys. -/
structure Header where
  Comments : List Comment := []
  Metadata : List (Str × Str) := []
  RawLines : List Str := []
  deriving DecidableEq, Repr

/-- The Go struct `File`. -/
structure File where
  Header : Header := {}
  Entries : List Entry := []
  deriving DecidableEq, Repr

/-- The values taken by the field name that `getMsgFieldType` returns and that
`parseEntries` keeps in `currentField`; `none` is the empty string. -/
inductive FieldKind where
  | none
  | msgctxt
  | msgid
  | msgid_plural
  | msgstr
  | msgstr_plural
  deriving DecidableEq, Repr

/-! ## Parser -/

/-- Go `parseComment`. -/
def parseComment (line : Str) : Comment :=
  if byteLen line < 2 then ⟨.TranslatorComment, []⟩
  else if startsWith line "#.".toList then ⟨.ExtractedComment, trimSpace (byteDrop 2 line)⟩
  else if startsWith line "#:".toList then ⟨.ReferenceComment, trimSpace (byteDrop 2 line)⟩
  else if startsWith line "#,".toList then ⟨.FlagComment, trimSpace (byteDrop 2 line)⟩
  else if startsWith line "#|".toList then ⟨.PreviousComment, trimSpace (byteDrop 2 line)⟩
  else ⟨.TranslatorComment, trimSpace (byteDrop 1 line)⟩

/-- Go `extractQuotedText`. -/
def extractQuotedText (line : Str) : Str :=
  match index line '"', lastIndex line '"' with
  | some start, some stop => if stop > start then (line.take stop).drop (start + 1) else []
  | _, _ => []

/-- Go `getMsgFieldType`. -/
def getMsgFieldType (line : Str) : FieldKind :=
  if startsWith line "msgctxt".toList then .msgctxt
  else if startsWith line "msgid_plural".toList then .msgid_plural
  else if startsWith line "msgid".toList then .msgid
  else if startsWith line "msgstr[".toList then .msgstr_plural
  else if startsWith line "msgstr".toList then .msgstr
  else .none

/-- Go `updateEntryField`. -/
def updateEntryField (entry : Entry) (field : FieldKind) (value : Str) : Entry :=
  match field with
  | .msgctxt => { entry with MsgContext := value }
  | .msgid => { entry with MsgID := value }
  | .msgid_plural => { entry with MsgIDPlural := value }
  | .msgstr => { entry with MsgStr := value }
  | .msgstr_plural => { entry with MsgStrPlural := entry.MsgStrPlural ++ [value] }
  | .none => entry

/-- Go `appendToEntryField`. -/
def appendToEntryField (entry : Entry) (field : FieldKind) (value : Str) : Entry :=
  match field with
  | .msgctxt => { entry with MsgContext := entry.MsgContext ++ value }
  | .msgid => { entry with MsgID := entry.MsgID ++ value }
  | .msgid_plural => { entry with MsgIDPlural := entry.MsgIDPlural ++ value }
  | .msgstr => { entry with MsgStr := entry.MsgStr ++ value }
  | .msgstr_plural =>
    match entry.MsgStrPlural.getLast? with
    | some last => { entry with MsgStrPlural := entry.MsgStrPlural.dropLast ++ [last ++ value] }
    | none => entry
  | .none => entry

/-- The local variables of the loop of `parseEntries`, with the entries appended to
the file so far. -/
structure ParseState where
  currentEntry : Entry := {}
  currentField : FieldKind := .none
  rawLines : List Str := []
  entries : List Entry := []
  deriving DecidableEq, Repr

/-- One iteration of the loop of `parseEntries`. -/
def parseLine (st : ParseState) (line : Str) : ParseState :=
  if trimSpace line = [] then
    if st.rawLines.length > 0 then
      { st with
        entries := st.entries ++ [{ st.currentEntry with RawLines := st.rawLines }]
        currentEntry := {}
        rawLines := [line] }
    else
      { st with rawLines := st.rawLines ++ [line] }
  else if startsWith line "#".toList then
    let comment := parseComment line
    let entry := { st.currentEntry with Comments := st.currentEntry.Comments ++ [comment] }
    { st with
      rawLines := st.rawLines ++ [line]
      currentEntry :=
        if comment.Kind = .FlagComment && contains comment.Content "fuzzy".toList then
          { entry with IsFuzzy := true }
        else entry }
  else if startsWith line "msg".toList then
    { st with
      rawLines := st.rawLines ++ [line]
      currentField := getMsgFieldType line
      currentEntry :=
        updateEntryField st.currentEntry (getMsgFieldType line) (extractQuotedText line) }
  else if startsWith line "\"".toList then
    { st with
      rawLines := st.rawLines ++ [line]
      currentEntry :=
        appendToEntryField st.currentEntry st.currentField (extractQuotedText line) }
  else
    { st with rawLines := st.rawLines ++ [line] }

/-- The end of `parseEntries`: the last entry is added if it has raw lines. -/
def parseFinish (st : ParseState) : List Entry :=
  if st.rawLines.length > 0 then
    st.entries ++ [{ st.currentEntry with RawLines := st.rawLines }]
  else st.entries

/-- Go `parseEntries`, returning the entries it appends to the (new) file. -/
def parseEntries (lines : List Str) : List Entry :=
  parseFinish (lines.foldl parseLine {})

/-- Go `parseMetadata`, called on a text that contains a colon. -/
def parseMetadata (line : Str) : Str × Str :=
  match index line ':' with
  | some k => (trimChar (trimSpace (line.take k)) '"', trimChar (trimSpace (line.drop (k + 1))) '"')
  | none => ([], [])

/-- The loop of `processHeaderMetadata`: the comments and the metadata collected,
`inMsgStr` being the local flag. -/
def processHeaderMetadata (hdr : Header) (inMsgStr : Bool) : List Str → Header
  | [] => hdr
  | line :: rest =>
    if startsWith line "#".toList then
      processHeaderMetadata { hdr with Comments := hdr.Comments ++ [parseComment line] } inMsgStr rest
    else if startsWith line "msgstr".toList then
      processHeaderMetadata hdr true rest
    else if inMsgStr && startsWith line "\"".toList then
      let content := extractQuotedText line
      if contains content ":".toList then
        let kv := parseMetadata content
        if kv.1 ≠ [] then
          processHeaderMetadata
            { hdr with Metadata := hdr.Metadata.filter (fun p => p.1 ≠ kv.1) ++ [kv] } inMsgStr rest
        else processHeaderMetadata hdr inMsgStr rest
      else processHeaderMetadata hdr inMsgStr rest
    else processHeaderMetadata hdr inMsgStr rest

/-- The first loop of `parseHeader`: the lines before the first line that starts with
`msgid ""`, and the lines from that line on. -/
def headerPrefix : List Str → List Str × List Str
  | [] => ([], [])
  | line :: rest =>
    if startsWith line "msgid \"\"".toList then ([], line :: rest)
    else ((headerPrefix rest).1.cons line, (headerPrefix rest).2)

/-- The second loop of `parseHeader`: the lines collected up to and including the
first blank line, and the number of iterations completed before the loop is left
(the position of the blank line, or the number of lines when there is none). -/
def headerEntry : List Str → List Str × Nat
  | [] => ([], 0)
  | line :: rest =>
    if trimSpace line = [] then ([line], 0)
    else ((headerEntry rest).1.cons line, (headerEntry rest).2 + 1)

/-- Go `parseHeader`: the header it stores in the file and the index it returns. -/
def parseHeader (lines : List Str) : Header × Nat :=
  let headerLines := (headerPrefix lines).1 ++ (headerEntry (headerPrefix lines).2).1
  (processHeaderMetadata { RawLines := headerLines } false headerLines,
    (headerPrefix lines).1.length + (headerEntry (headerPrefix lines).2).2 + 1)

/-- Go `ReadPoFile` after the lines have been read: `none` is the run-time panic of
the slice expression `lines[headerEndIndex:]` when the index exceeds `len(lines)`. -/
def ReadPoFile (lines : List Str) : Option File :=
  if (parseHeader lines).2 ≤ lines.length then
    some { Header := (parseHeader lines).1
           Entries := parseEntries (lines.drop (parseHeader lines).2) }
  else none

/-! ## Writer -/

/-- The translation capability: text, source language, target language. -/
abbrev Translator := Str → Str → Str → Option Str

/-- Go `translateText`: on failure the source text is returned. -/
def translateText (text lang : Str) (tc : Translator) : Str :=
  match tc text "en".toList lang with
  | some translatedText => translatedText
  | none => text

/-- Go `escapeString`. -/
def escapeString (s : Str) : Str :=
  replaceAll (replaceAll (replaceAll (replaceAll s '\\' ['\\', '\\']) '"' ['\\', '"'])
    '\n' ['\\', 'n']) '\t' ['\\', 't']

/-- The loop body of `splitIntoChunks` on the pair (`chunks`, `currentChunk`). -/
def chunkStep (maxLength : Int) (st : List Str × Str) (word : Str) : List Str × Str :=
  if ((byteLen st.2 + byteLen word + 1 : Nat) : Int) > maxLength && st.2 ≠ [] then
    (st.1 ++ [st.2], word)
  else if st.2 = [] then (st.1, word)
  else (st.1, st.2 ++ ' ' :: word)

/-- Go `splitIntoChunks`. -/
def splitIntoChunks (text : Str) (maxLength : Int) : List Str :=
  let st := (fields text).foldl (chunkStep maxLength) ([], [])
  if st.2 ≠ [] then st.1 ++ [st.2] else st.1

/-- The indentation computed at the start of `writeTranslatedString`: the text before
the first code point that is neither a space nor a tab, and the empty text when there
is no such code point. -/
def indentOf (originalLine : Str) : Str :=
  if originalLine.all (fun c => c == ' ' || c == '\t') then []
  else originalLine.takeWhile (fun c => c == ' ' || c == '\t')

/-- Go `writeTranslatedString`: the lines written. -/
def writeTranslatedString (pfx text originalLine : Str) : List Str :=
  if byteLen text ≤ 70 then
    [indentOf originalLine ++ pfx ++ " \"".toList ++ escapeString text ++ "\"".toList]
  else
    (indentOf originalLine ++ pfx ++ " \"\"".toList) ::
      (splitIntoChunks text 70).map
        (fun chunk => indentOf originalLine ++ "\"".toList ++ escapeString chunk ++ "\"".toList)

/-- The flags kept by the writer for a `#,` line (`newFlags`). -/
def newFlags (line : Str) : List Str :=
  ((split (trimPrefix line "#,".toList) ',').map trimSpace).filter (· ≠ "fuzzy".toList)

/-- The backward scan `for j := i - 1; j >= 0; j--` of the writer over the raw lines
that precede the current one, given nearest first: `foundMsgStr`. -/
def foundMsgStr : List Str → Bool
  | [] => false
  | line :: earlier =>
    if startsWith line "msgstr".toList then true
    else if !startsWith (trimSpace line) "\"".toList then false
    else foundMsgStr earlier

/-- One iteration of the loop over `entry.RawLines` in `WritePOFile`, at index `i`:
the lines written and the new value of `skipNextEmptyLine`.  In the plural branch the
line starts with `msgstr[`, so the first `[` is before any `]` and the slice
`line[start : end+1]` is in range. -/
def writeLine (entry : Entry) (targetLang : Str) (tc : Translator) (i : Nat)
    (skipNextEmptyLine : Bool) (line : Str) : List Str × Bool :=
  let shouldTranslate := entry.MsgStr = [] || entry.IsFuzzy
  if skipNextEmptyLine && trimSpace line = [] then ([], false)
  else if startsWith line "#,".toList then
    if (newFlags line).length > 0 then
      (["#, ".toList ++ join (newFlags line) ", ".toList], skipNextEmptyLine)
    else ([], true)
  else if startsWith line "msgstr \"".toList && !startsWith line "msgstr[".toList then
    if shouldTranslate && entry.MsgID ≠ [] then
      (writeTranslatedString "msgstr".toList (translateText entry.MsgID targetLang tc) line,
        skipNextEmptyLine)
    else ([line], skipNextEmptyLine)
  else if startsWith line "msgstr[".toList then
    if shouldTranslate && (entry.MsgID ≠ [] || entry.MsgIDPlural ≠ []) then
      match index line '[', index line ']' with
      | some start, some stop =>
        let sourceText :=
          if startsWith line "msgstr[0]".toList then entry.MsgID else entry.MsgIDPlural
        (writeTranslatedString ("msgstr".toList ++ (line.take (stop + 1)).drop start)
          (translateText sourceText targetLang tc) line, skipNextEmptyLine)
      | _, _ => ([], skipNextEmptyLine)
    else ([line], skipNextEmptyLine)
  else if shouldTranslate && startsWith (trimSpace line) "\"".toList
      && foundMsgStr (entry.RawLines.take i).reverse then
    ([], skipNextEmptyLine)
  else ([line], skipNextEmptyLine)

/-- The loop over `entry.RawLines` in `WritePOFile`, from index `i` on. -/
def writeLines (entry : Entry) (targetLang : Str) (tc : Translator) :
    Nat → Bool → List Str → List Str
  | _, _, [] => []
  | i, skip, line :: rest =>
    (writeLine entry targetLang tc i skip line).1 ++
      writeLines entry targetLang tc (i + 1) (writeLine entry targetLang tc i skip line).2 rest

/-- The body of the loop over `poFile.Entries` in `WritePOFile`. -/
def writeEntry (entry : Entry) (targetLang : Str) (tc : Translator) : List Str :=
  writeLines entry targetLang tc 0 false entry.RawLines

/-- Go `WritePOFile`: the lines written to the output file. -/
def WritePOFile (poFile : File) (targetLang : Str) (tc : Translator) : List Str :=
  poFile.Header.RawLines ++ (poFile.Entries.map (fun e => writeEntry e targetLang tc)).flatten

/-! ## Definitions used to state the properties -/

/-- The escape of one code point, as the specification lists it: a backslash, a double
quote, a newline and a tab become a backslash followed by a backslash, a double quote,
`n` and `t`; any other code point is kept. -/
def escapeChar (c : Char) : Str :=
  if c = '\\' then ['\\', '\\']
  else if c = '"' then ['\\', '"']
  else if c = '\n' then ['\\', 'n']
  else if c = '\t' then ['\\', 't']
  else [c]

/-- The Go constants of type `CommentType`: the text of each kind. -/
def CommentType.text : CommentType → Str
  | .TranslatorComment => "#".toList
  | .ExtractedComment => "#.".toList
  | .ReferenceComment => "#:".toList
  | .FlagComment => "#,".toList
  | .PreviousComment => "#|".toList

/-- The value returned by `splitIntoChunks` for a final loop state (`chunks`,
`currentChunk`): the last chunk is added when it is not empty. -/
def chunkFinish (st : List Str × Str) : List Str :=
  if st.2 ≠ [] then st.1 ++ [st.2] else st.1

/-- A word: a non-empty text without white space. -/
def IsWord (w : Str) : Prop := w ≠ [] ∧ ∀ c ∈ w, isSpace c = false

/-- The effect of one raw line on the entry under construction and on the current
field: what an iteration of the loop of `parseEntries` does besides collecting raw
lines and closing entries. -/
def entryStep (acc : Entry × FieldKind) (line : Str) : Entry × FieldKind :=
  if trimSpace line = [] then acc
  else if startsWith line "#".toList then
    let comment := parseComment line
    let entry := { acc.1 with Comments := acc.1.Comments ++ [comment] }
    (if comment.Kind = .FlagComment && contains comment.Content "fuzzy".toList then
        { entry with IsFuzzy := true }
      else entry, acc.2)
  else if startsWith line "msg".toList then
    (updateEntryField acc.1 (getMsgFieldType line) (extractQuotedText line),
      getMsgFieldType line)
  else if startsWith line "\"".toList then
    (appendToEntryField acc.1 acc.2 (extractQuotedText line), acc.2)
  else acc

/-- The entry that `parseEntries` builds from the raw lines `raw` when the current
field is `field0` at the first of them. -/
def entryOf (field0 : FieldKind) (raw : List Str) : Entry :=
  { (raw.foldl entryStep ({}, field0)).1 with RawLines := raw }

/-- The line `msgid "S"`. -/
def msgidLine (S : Str) : Str := "msgid \"".toList ++ S ++ "\"".toList

/-- The line `msgstr "S"`. -/
def msgstrLine (S : Str) : Str := "msgstr \"".toList ++ S ++ "\"".toList

/-- The value of `skipNextEmptyLine` after the loop over the raw lines `lines`, started at
index `i` with the value `skip`. -/
def writeSkip (entry : Entry) (targetLang : Str) (tc : Translator) :
    Nat → Bool → List Str → Bool
  | _, skip, [] => skip
  | i, skip, line :: rest =>
    writeSkip entry targetLang tc (i + 1) (writeLine entry targetLang tc i skip line).2 rest

/-- The flags of a `#,` line as the specification describes them: the text after `#,`
split on commas, each piece trimmed, the pieces equal to `fuzzy` dropped. -/
def flagsWithoutFuzzy (line : Str) : List Str :=
  ((split (line.drop 2) ',').map trimSpace).filter (fun flag => flag ≠ "fuzzy".toList)

/-- The flags carried by a flag line: the text after `#,` split on commas, each piece
trimmed. -/
def flagsOf (line : Str) : List Str := (split (line.drop 2) ',').map trimSpace

/-- A translation capability for the examples: `Hello` gives `Bonjour`, `one item` gives
`un`, `many items` gives `plusieurs`, and every other text fails. -/
def exampleTranslator : Translator := fun text _ _ =>
  if text = "Hello".toList then some "Bonjour".toList
  else if text = "one item".toList then some "un".toList
  else if text = "many items".toList then some "plusieurs".toList
  else none

/-- The number of blank (all white space) lines of a line sequence. -/
def blankCount (lines : List Str) : Nat := (lines.filter (fun l => trimSpace l = [])).length

/-- The invariant of the loop of `parseEntries`: the entry under construction and the
closed entries are those determined by their raw lines. -/
structure ParseInv (st : ParseState) : Prop where
  cur : ∃ f0, (st.currentEntry, st.currentField) = st.rawLines.foldl entryStep ({}, f0)
  closed : ∀ e ∈ st.entries, ∃ f0, e = entryOf f0 e.RawLines

/-- The invariant of the loop of `parseEntries` on blank lines: a blank line is never at
index 1 or later of a raw-line buffer, and a closed entry has raw lines. -/
structure BlankInv (st : ParseState) : Prop where
  cur : ∀ l ∈ st.rawLines.tail, trimSpace l ≠ []
  closed : ∀ e ∈ st.entries, e.RawLines ≠ [] ∧ ∀ l ∈ e.RawLines.tail, trimSpace l ≠ []

/-- The test made by `parseEntries` on a classified comment: a flag comment whose payload
contains `fuzzy`. -/
def isFuzzyComment (c : Comment) : Bool :=
  c.Kind = .FlagComment && contains c.Content "fuzzy".toList

/-- Reading a written field back the way the parser does: the quoted payload of the
field-start line followed by the quoted payloads of the continuation lines. -/
def readBack (fieldLines : List Str) : Str := (fieldLines.map extractQuotedText).flatten

/-! ## The translation client (`pkg/translation/translation.go`) -/

/-- The loop of `strings.Split(s, sep)` for a separator of two one-byte code points `a`,
`b`, `cur` being the piece under construction. -/
def splitGo2 (a b : Char) : Str → Str → List Str
  | cur, [] => [cur]
  | cur, [c] => [cur ++ [c]]
  | cur, c :: d :: s =>
    if c = a ∧ d = b then cur :: splitGo2 a b [] s
    else splitGo2 a b (cur ++ [c]) (d :: s)

/-- Go `strings.Split(s, sep)` for a separator of two one-byte code points. -/
def split2 (s : Str) (a b : Char) : List Str := splitGo2 a b [] s

/-- The loop of `splitIntoSentences`: a period is put back after every piece but the
last. -/
def addPeriods : List Str → List Str
  | [] => []
  | [sentence] => [sentence]
  | sentence :: rest => (sentence ++ ['.']) :: addPeriods rest

/-- Go `splitIntoSentences`. -/
def splitIntoSentences (text : Str) : List Str := addPeriods (split2 text '.' ' ')

/-- The loop over `sentences` in `translateLongText`, `call` being the recursive call of
`TranslateText`.  A result `none` means that a call does not return, `some none` that the
loop returns an error, `some (some ts)` that it ends with `translatedSentences = ts`. -/
def translateSentences (call : Str → Option (Option Str)) :
    List Str → Option (Option (List Str))
  | [] => some (some [])
  | sentence :: rest =>
    match call sentence with
    | none => none
    | some none => some none
    | some (some translated) =>
      match translateSentences call rest with
      | none => none
      | some none => some none
      | some (some ts) => some (some (translated :: ts))

/-- The loop over `paragraphs` in `translateLongText`, with the same conventions. -/
def translateParagraphs (call : Str → Option (Option Str)) :
    List Str → Option (Option (List Str))
  | [] => some (some [])
  | paragraph :: rest =>
    match
      (if paragraph = [] then some (some [])
        else if byteLen paragraph > 9000 then
          match translateSentences call (splitIntoSentences paragraph) with
          | none => none
          | some none => some none
          | some (some ts) => some (some (join ts " ".toList))
        else call paragraph) with
    | none => none
    | some none => some none
    | some (some part) =>
      match translateParagraphs call rest with
      | none => none
      | some none => some none
      | some (some parts) => some (some (part :: parts))

/-- Go `Client.TranslateText`, with `translateLongText` unfolded in it, over a backend
that returns a translated text or fails.  The first argument bounds the depth of the
recursion through `translateLongText`: the result is `none` when the call does not return
within that depth, `some none` when it returns an error and `some (some t)` when it returns
the text `t`. -/
def TranslateText (backend : Translator) : Nat → Str → Str → Str → Option (Option Str)
  | 0, _, _, _ => none
  | fuel + 1, text, sourceLang, targetLang =>
    if byteLen text > 9000 then
      match translateParagraphs (fun part => TranslateText backend fuel part sourceLang targetLang)
          (split2 text '\n' '\n') with
      | none => none
      | some none => some none
      | some (some parts) => some (some (join parts "\n\n".toList))
    else some (backend text sourceLang targetLang)

/-! ## Definitions used to state the properties of the raw lines of an entry -/

/-- The kind of the nearest line that starts with `msg` among the lines `earlier`, given
nearest first; `none` when there is no such line. -/
def lastField : List Str → FieldKind
  | [] => .none
  | l :: earlier => if startsWith l "msg".toList then getMsgFieldType l else lastField earlier

/-- The kinds of the source fields: `msgctxt`, `msgid` and `msgid_plural`. -/
def isSourceKind : FieldKind → Bool
  | .msgctxt => true
  | .msgid => true
  | .msgid_plural => true
  | _ => false

/-- The raw lines that the writer has to keep: a comment line other than a `#,` line, a
`msgctxt`, `msgid` or `msgid_plural` line, and a quoted continuation line of one of these
fields (`earlier` are the raw lines before the line, nearest first). -/
def isPreserved (earlier : List Str) (line : Str) : Bool :=
  (startsWith line "#".toList && !startsWith line "#,".toList) ||
  (startsWith line "msg".toList && isSourceKind (getMsgFieldType line)) ||
  (startsWith line "\"".toList && isSourceKind (lastField earlier))

/-- The raw lines of `entry` to keep among `lines`, which are its raw lines from index
`i` on. -/
def preservedFrom (entry : Entry) : Nat → List Str → List Str
  | _, [] => []
  | i, l :: rest =>
    (if isPreserved (entry.RawLines.take i).reverse l then [l] else []) ++
      preservedFrom entry (i + 1) rest

/-- The raw lines of an entry that the writer has to keep, in order. -/
def preservedLines (entry : Entry) : List Str := preservedFrom entry 0 entry.RawLines

/-- The concatenation of the quoted payloads of the continuation lines (lines that start
with a double quote) that come before the next field-start line (a line that starts with
`msg`). -/
def contTexts : List Str → Str
  | [] => []
  | l :: rest =>
    if startsWith l "msg".toList then []
    else if startsWith l "\"".toList then extractQuotedText l ++ contTexts rest
    else contTexts rest

/-- The text of the field of kind `k` as the specification describes it: the quoted
payload of the last field-start line of that kind followed by the payloads of the
continuation lines that follow it before the next field-start line; `none` when no
field-start line has that kind. -/
def fieldText (k : FieldKind) : List Str → Option Str
  | [] => none
  | l :: rest =>
    match fieldText k rest with
    | some v => some v
    | none =>
      if startsWith l "msg".toList ∧ getMsgFieldType l = k then
        some (extractQuotedText l ++ contTexts rest)
      else none

/-- The plural texts as the specification describes them: one per line that starts with
`msgstr[`, in encounter order, each the payload of the line followed by the payloads of
its continuation lines. -/
def pluralTexts : List Str → List Str
  | [] => []
  | l :: rest =>
    if startsWith l "msgstr[".toList then
      (extractQuotedText l ++ contTexts rest) :: pluralTexts rest
    else pluralTexts rest

/-- No continuation line comes before the first field-start line. -/
def noLeadingContinuation : List Str → Bool
  | [] => true
  | l :: rest =>
    if startsWith l "msg".toList then true
    else if startsWith l "\"".toList then false
    else noLeadingContinuation rest

/-- The field of an entry that holds the text of kind `k`, for the four kinds with a
single text. -/
def scalarField : FieldKind → Entry → Str
  | .msgctxt, e => e.MsgContext
  | .msgid, e => e.MsgID
  | .msgid_plural, e => e.MsgIDPlural
  | .msgstr, e => e.MsgStr
  | _, _ => []

/-- The list `l` with `v` appended to its last element, if it has one. -/
def appendToLast (l : List Str) (v : Str) : List Str :=
  match l.getLast? with
  | some last => l.dropLast ++ [last ++ v]
  | none => l

/-! ## Theorems -/

/-! ### Comment classification -/

theorem utf8Size_pos (c : Char) : 0 < c.utf8Size := Char.utf8Size_pos c

theorem startsWith_cons_cons (c d : Char) (s p : Str) :
    startsWith (c :: s) (d :: p) = (d == c && startsWith s p) := by
  simp [startsWith, List.isPrefixOf]

theorem startsWith_nil (s : Str) : startsWith s [] = true := by
  simp [startsWith]

theorem startsWith_nil_cons (d : Char) (p : Str) : startsWith [] (d :: p) = false := by
  simp [startsWith]

theorem byteDrop_zero (s : Str) : byteDrop 0 s = s := by
  cases s <;> rfl

theorem byteDrop_one_cons (c : Char) (s : Str) : byteDrop 1 (c :: s) = s := by
  have h := utf8Size_pos c
  show byteDrop (0 + 1 - c.utf8Size) s = s
  have : 0 + 1 - c.utf8Size = 0 := by omega
  rw [this, byteDrop_zero]

theorem byteDrop_two_hash (d : Char) (r : Str) : byteDrop 2 ('#' :: d :: r) = r := by
  show byteDrop (1 + 1 - '#'.utf8Size) (d :: r) = r
  have : 1 + 1 - '#'.utf8Size = 1 := by decide
  rw [this, byteDrop_one_cons]

/-- C8. Comment classification: for a line that starts with `#`, `parseComment` returns
`TranslatorComment` with an empty payload when the line is shorter than two bytes;
otherwise the kind is `ExtractedComment`, `ReferenceComment`, `FlagComment` or
`PreviousComment` exactly when the line starts with `#.`, `#:`, `#,` or `#|`, it is
`TranslatorComment` exactly when none of the four matches, and the payload is the line
without the text of its kind, trimmed of surrounding white space. -/
theorem parseComment_classification (line : Str) (h : startsWith line "#".toList = true) :
    (byteLen line < 2 → parseComment line = ⟨.TranslatorComment, []⟩) ∧
    (2 ≤ byteLen line →
      ((parseComment line).Kind = .ExtractedComment ↔ startsWith line "#.".toList = true) ∧
      ((parseComment line).Kind = .ReferenceComment ↔ startsWith line "#:".toList = true) ∧
      ((parseComment line).Kind = .FlagComment ↔ startsWith line "#,".toList = true) ∧
      ((parseComment line).Kind = .PreviousComment ↔ startsWith line "#|".toList = true) ∧
      ((parseComment line).Kind = .TranslatorComment ↔
        (startsWith line "#.".toList = false ∧ startsWith line "#:".toList = false ∧
          startsWith line "#,".toList = false ∧ startsWith line "#|".toList = false)) ∧
      (parseComment line).Content =
        trimSpace (trimPrefix line (parseComment line).Kind.text)) := by
  refine ⟨fun hlt => by simp [parseComment, hlt], fun hge => ?_⟩
  have hnlt : ¬ byteLen line < 2 := by omega
  match line, h with
  | c :: rest, h =>
    simp only [String.toList, startsWith_cons_cons, startsWith_nil, Bool.and_true,
      beq_iff_eq] at h
    subst h
    match rest with
    | [] => exact absurd hge (by decide)
    | d :: r =>
      by_cases h1 : d = '.'
      · subst h1
        simp [parseComment, hnlt, startsWith_cons_cons, startsWith_nil, byteDrop_two_hash,
          CommentType.text, trimPrefix]
      · by_cases h2 : d = ':'
        · subst h2
          simp [parseComment, hnlt, startsWith_cons_cons, startsWith_nil, byteDrop_two_hash,
            CommentType.text, trimPrefix]
        · by_cases h3 : d = ','
          · subst h3
            simp [parseComment, hnlt, startsWith_cons_cons, startsWith_nil, byteDrop_two_hash,
              CommentType.text, trimPrefix]
          · by_cases h4 : d = '|'
            · subst h4
              simp [parseComment, hnlt, startsWith_cons_cons, startsWith_nil,
                byteDrop_two_hash, CommentType.text, trimPrefix]
            · have e1 : ('.' == d) = false := by simpa using fun h => h1 h.symm
              have e2 : (':' == d) = false := by simpa using fun h => h2 h.symm
              have e3 : (',' == d) = false := by simpa using fun h => h3 h.symm
              have e4 : ('|' == d) = false := by simpa using fun h => h4 h.symm
              simp [parseComment, hnlt, startsWith_cons_cons, startsWith_nil,
                byteDrop_one_cons, CommentType.text, trimPrefix, e1, e2, e3, e4]

/-- The classification at the examples `#: file.c:10`, `#. note` and `# plain`. -/
theorem parseComment_classification_witness :
    startsWith "#: file.c:10".toList "#".toList = true ∧
    parseComment "#: file.c:10".toList = ⟨.ReferenceComment, "file.c:10".toList⟩ ∧
    parseComment "#. note".toList = ⟨.ExtractedComment, "note".toList⟩ ∧
    parseComment "# plain".toList = ⟨.TranslatorComment, "plain".toList⟩ ∧
    ((parseComment "#: file.c:10".toList).Kind = .ReferenceComment ↔
      startsWith "#: file.c:10".toList "#:".toList = true) :=
  ⟨by decide, by decide, by decide, by decide,
   ((parseComment_classification "#: file.c:10".toList (by decide)).2 (by decide)).2.1⟩

/-! ### Escaping -/

theorem replaceAll_append (a b : Str) (old : Char) (new : Str) :
    replaceAll (a ++ b) old new = replaceAll a old new ++ replaceAll b old new := by
  induction a with
  | nil => simp [replaceAll]
  | cons c a ih => simp [replaceAll, ih]

theorem escapeString_cons (c : Char) (s : Str) :
    escapeString (c :: s) = escapeChar c ++ escapeString s := by
  unfold escapeString escapeChar
  by_cases h1 : c = '\\'
  · subst h1; simp [replaceAll, replaceAll_append]
  · by_cases h2 : c = '"'
    · subst h2; simp [replaceAll, replaceAll_append]
    · by_cases h3 : c = '\n'
      · subst h3; simp [replaceAll, replaceAll_append]
      · by_cases h4 : c = '\t'
        · subst h4; simp [replaceAll, replaceAll_append]
        · simp [replaceAll, replaceAll_append, h1, h2, h3, h4]

/-- C9. Escaping: `escapeString s` is the concatenation, over the code points of `s` in
order, of the escape of each one (`escapeChar`); the four successive replacements never
escape again what another replacement produced. -/
theorem escapeString_eq_flatten_escapeChar (s : Str) :
    escapeString s = (s.map escapeChar).flatten := by
  induction s with
  | nil => rfl
  | cons c s ih => rw [escapeString_cons, ih]; simp

/-! ### Chunking -/

theorem byteLen_append (a b : Str) : byteLen (a ++ b) = byteLen a + byteLen b := by
  induction a with
  | nil => simp [byteLen]
  | cons c a ih => simp [byteLen, ih]; omega

theorem byteLen_eq_zero (s : Str) (h : byteLen s = 0) : s = [] := by
  cases s with
  | nil => rfl
  | cons c s => have := utf8Size_pos c; simp [byteLen] at h; omega

theorem fieldsGo_nospace (w : Str) (hw : ∀ c ∈ w, isSpace c = false) (cur rest : Str) :
    fieldsGo cur (w ++ rest) = fieldsGo (cur ++ w) rest := by
  induction w generalizing cur with
  | nil => simp
  | cons c w ih =>
    have hc : isSpace c = false := hw c (by simp)
    have e := ih (fun d hd => hw d (by simp [hd])) (cur ++ [c])
    simp only [List.cons_append, fieldsGo, hc, Bool.false_eq_true, if_false]
    simpa using e

theorem fields_word (w : Str) (hw : IsWord w) : fields w = [w] := by
  have h := fieldsGo_nospace w hw.2 [] []
  simp only [List.append_nil, List.nil_append] at h
  rw [fields, h]
  simp [fieldsGo, hw.1]

theorem fieldsGo_space (a : Str) (c : Char) (hc : isSpace c = true) (b cur : Str) :
    fieldsGo cur (a ++ c :: b) = fieldsGo cur a ++ fieldsGo [] b := by
  induction a generalizing cur with
  | nil =>
    by_cases h : cur = [] <;> simp [fieldsGo, hc, h]
  | cons x a ih =>
    by_cases hx : isSpace x = true
    · by_cases h : cur = [] <;> simp [fieldsGo, hx, h, ih]
    · simp [fieldsGo, hx, ih]

theorem fields_space (a b : Str) (c : Char) (hc : isSpace c = true) :
    fields (a ++ c :: b) = fields a ++ fields b :=
  fieldsGo_space a c hc b []

/-- Every field produced by the loop of `strings.Fields` is a word. -/
theorem fieldsGo_isWord (s cur : Str) (hcur : ∀ c ∈ cur, isSpace c = false) :
    ∀ w ∈ fieldsGo cur s, IsWord w := by
  induction s generalizing cur with
  | nil =>
    intro w hw
    by_cases h : cur = []
    · simp [fieldsGo, h] at hw
    · simp [fieldsGo, h] at hw; subst hw; exact ⟨h, hcur⟩
  | cons x s ih =>
    intro w hw
    by_cases hx : isSpace x = true
    · by_cases h : cur = []
      · simp [fieldsGo, hx, h] at hw
        exact ih [] (by simp) w hw
      · simp [fieldsGo, hx, h] at hw
        rcases hw with hw | hw
        · subst hw; exact ⟨h, hcur⟩
        · exact ih [] (by simp) w hw
    · simp [fieldsGo, hx] at hw
      refine ih (cur ++ [x]) ?_ w hw
      intro c hc
      simp at hc
      rcases hc with hc | hc
      · exact hcur c hc
      · subst hc; simpa using hx

theorem fields_isWord (s : Str) : ∀ w ∈ fields s, IsWord w :=
  fieldsGo_isWord s [] (by simp)

theorem join_nil (sep : Str) : join [] sep = [] := by simp [join, List.intercalate]

theorem join_singleton (a sep : Str) : join [a] sep = a := by simp [join, List.intercalate]

theorem join_cons_cons (a b : Str) (l : List Str) (sep : Str) :
    join (a :: b :: l) sep = a ++ sep ++ join (b :: l) sep := by
  simp [join, List.intercalate]

/-- Merging the last chunk with the next word does not change the joined text. -/
theorem join_merge (A B : List Str) (x y : Str) :
    join (A ++ (x ++ ' ' :: y) :: B) [' '] = join (A ++ x :: y :: B) [' '] := by
  induction A with
  | nil =>
    cases B with
    | nil => simp [join_cons_cons, join_singleton]
    | cons b B => simp [join_cons_cons]
  | cons a A ih =>
    cases A with
    | nil =>
      simp only [List.nil_append] at ih
      simp [join_cons_cons, ih]
    | cons a2 A =>
      simp only [List.cons_append] at ih
      simp [join_cons_cons, ih]

theorem chunkFinish_nil (chunks : List Str) : chunkFinish (chunks, []) = chunks := by
  simp [chunkFinish]

theorem chunkFinish_cons (chunks : List Str) (cur : Str) (h : cur ≠ []) :
    chunkFinish (chunks, cur) = chunks ++ [cur] := by
  simp [chunkFinish, h]

theorem splitIntoChunks_eq (text : Str) (maxLength : Int) :
    splitIntoChunks text maxLength =
      chunkFinish ((fields text).foldl (chunkStep maxLength) ([], [])) := rfl

/-- The three cases of `chunkStep` on a non-empty word. -/
theorem chunkStep_cases (maxLength : Int) (chunks : List Str) (cur w : Str) :
    (cur = [] ∧ chunkStep maxLength (chunks, cur) w = (chunks, w)) ∨
    (cur ≠ [] ∧ ((byteLen cur + byteLen w + 1 : Nat) : Int) > maxLength ∧
      chunkStep maxLength (chunks, cur) w = (chunks ++ [cur], w)) ∨
    (cur ≠ [] ∧ ((byteLen cur + byteLen w + 1 : Nat) : Int) ≤ maxLength ∧
      chunkStep maxLength (chunks, cur) w = (chunks, cur ++ ' ' :: w)) := by
  by_cases h : cur = []
  · left; simp [chunkStep, h]
  · by_cases h2 : ((byteLen cur + byteLen w + 1 : Nat) : Int) > maxLength
    · right; left
      refine ⟨h, h2, ?_⟩
      simp only [chunkStep]
      rw [if_pos (by simp only [Bool.and_eq_true, decide_eq_true_eq]; exact ⟨h2, h⟩)]
    · right; right
      refine ⟨h, by omega, ?_⟩
      simp only [chunkStep]
      rw [if_neg (by simp only [Bool.and_eq_true, decide_eq_true_eq]; exact fun hh => h2 hh.1),
        if_neg h]

theorem chunk_loop_join (maxLength : Int) (ws : List Str) (hws : ∀ w ∈ ws, IsWord w)
    (chunks : List Str) (cur : Str) :
    join (chunkFinish (ws.foldl (chunkStep maxLength) (chunks, cur))) [' '] =
      join (chunkFinish (chunks, cur) ++ ws) [' '] := by
  induction ws generalizing chunks cur with
  | nil => simp
  | cons w ws ih =>
    have hw : w ≠ [] := (hws w (by simp)).1
    have hws2 : ∀ v ∈ ws, IsWord v := fun v hv => hws v (by simp [hv])
    rw [List.foldl_cons]
    rcases chunkStep_cases maxLength chunks cur w with ⟨h, e⟩ | ⟨h, _, e⟩ | ⟨h, _, e⟩
    · rw [e, ih hws2, chunkFinish_cons _ _ hw, h, chunkFinish_nil]; simp
    · rw [e, ih hws2, chunkFinish_cons _ _ hw, chunkFinish_cons _ _ h]; simp
    · rw [e, ih hws2, chunkFinish_cons _ _ (by simp), chunkFinish_cons _ _ h]
      simpa using join_merge chunks ws cur w

theorem chunk_loop_fields (maxLength : Int) (ws : List Str) (hws : ∀ w ∈ ws, IsWord w)
    (chunks : List Str) (cur : Str) :
    ((chunkFinish (ws.foldl (chunkStep maxLength) (chunks, cur))).map fields).flatten =
      ((chunkFinish (chunks, cur)).map fields).flatten ++ ws := by
  induction ws generalizing chunks cur with
  | nil => simp
  | cons w ws ih =>
    have hw : w ≠ [] := (hws w (by simp)).1
    have hfw : fields w = [w] := fields_word w (hws w (by simp))
    have hws2 : ∀ v ∈ ws, IsWord v := fun v hv => hws v (by simp [hv])
    rw [List.foldl_cons]
    rcases chunkStep_cases maxLength chunks cur w with ⟨h, e⟩ | ⟨h, _, e⟩ | ⟨h, _, e⟩
    · rw [e, ih hws2, chunkFinish_cons _ _ hw, h, chunkFinish_nil]; simp [hfw]
    · rw [e, ih hws2, chunkFinish_cons _ _ hw, chunkFinish_cons _ _ h]; simp [hfw]
    · rw [e, ih hws2, chunkFinish_cons _ _ (by simp), chunkFinish_cons _ _ h]
      simp [fields_space cur w ' ' (by decide), hfw]

/-- C6. Chunking preserves the word sequence: the fields of the chunks of
`splitIntoChunks text maxLength`, chunk after chunk, are the fields of `text`, and joining
the chunks with single spaces gives the same text as joining the words of `text` with
single spaces. -/
theorem splitIntoChunks_preserves_words (text : Str) (maxLength : Int) :
    ((splitIntoChunks text maxLength).map fields).flatten = fields text ∧
    join (splitIntoChunks text maxLength) " ".toList = join (fields text) " ".toList := by
  constructor
  · rw [splitIntoChunks_eq, chunk_loop_fields maxLength _ (fields_isWord text)]
    simp [chunkFinish]
  · rw [splitIntoChunks_eq]
    have h := chunk_loop_join maxLength _ (fields_isWord text) [] []
    simpa [chunkFinish] using h

theorem chunk_loop_width (maxLength : Int) (W : List Str) (ws : List Str)
    (hws : ∀ w ∈ ws, w ≠ [] ∧ w ∈ W) (chunks : List Str) (cur : Str)
    (hchunks : ∀ ch ∈ chunks, ch ≠ [] ∧ ((byteLen ch : Int) ≤ maxLength ∨ ch ∈ W))
    (hcur : cur = [] ∨ (byteLen cur : Int) ≤ maxLength ∨ cur ∈ W) :
    ∀ ch ∈ chunkFinish (ws.foldl (chunkStep maxLength) (chunks, cur)),
      ch ≠ [] ∧ ((byteLen ch : Int) ≤ maxLength ∨ ch ∈ W) := by
  induction ws generalizing chunks cur with
  | nil =>
    intro ch hch
    by_cases h : cur = []
    · rw [List.foldl_nil, h, chunkFinish_nil] at hch
      exact hchunks ch hch
    · rw [List.foldl_nil, chunkFinish_cons _ _ h] at hch
      simp only [List.mem_append, List.mem_singleton] at hch
      rcases hch with hch | hch
      · exact hchunks ch hch
      · subst hch
        exact ⟨h, hcur.resolve_left h⟩
  | cons w ws ih =>
    have hw := hws w (by simp)
    have hws2 : ∀ v ∈ ws, v ≠ [] ∧ v ∈ W := fun v hv => hws v (by simp [hv])
    rw [List.foldl_cons]
    rcases chunkStep_cases maxLength chunks cur w with ⟨_, e⟩ | ⟨h, _, e⟩ | ⟨h, hle, e⟩
    · rw [e]
      exact ih hws2 chunks w hchunks (Or.inr (Or.inr hw.2))
    · rw [e]
      refine ih hws2 (chunks ++ [cur]) w ?_ (Or.inr (Or.inr hw.2))
      intro ch hch
      simp only [List.mem_append, List.mem_singleton] at hch
      rcases hch with hch | hch
      · exact hchunks ch hch
      · subst hch
        exact ⟨h, hcur.resolve_left h⟩
    · rw [e]
      refine ih hws2 chunks (cur ++ ' ' :: w) hchunks (Or.inr (Or.inl ?_))
      have e1 : byteLen (cur ++ ' ' :: w) = byteLen cur + (1 + byteLen w) := by
        rw [byteLen_append]; rfl
      rw [e1]
      omega

/-- C7. Chunk width limit: every chunk of `splitIntoChunks text maxLength` is non-empty and
either is at most `maxLength` bytes long or is a single word of `text`; when no word of
`text` is longer than `maxLength`, every chunk is at most `maxLength` bytes long. -/
theorem splitIntoChunks_width (text : Str) (maxLength : Int) (chunk : Str)
    (h : chunk ∈ splitIntoChunks text maxLength) :
    chunk ≠ [] ∧
    ((byteLen chunk : Int) ≤ maxLength ∨ (chunk ∈ fields text ∧ fields chunk = [chunk])) ∧
    ((∀ w ∈ fields text, (byteLen w : Int) ≤ maxLength) → (byteLen chunk : Int) ≤ maxLength) := by
  have key := chunk_loop_width maxLength (fields text) (fields text)
    (fun w hw => ⟨(fields_isWord text w hw).1, hw⟩) [] [] (by simp) (Or.inl rfl) chunk
    (by rw [← splitIntoChunks_eq]; exact h)
  refine ⟨key.1, ?_, ?_⟩
  · rcases key.2 with hk | hk
    · exact Or.inl hk
    · exact Or.inr ⟨hk, fields_word chunk (fields_isWord text chunk hk)⟩
  · intro hall
    rcases key.2 with hk | hk
    · exact hk
    · exact hall chunk hk

/-- The width limit at a text with a word longer than the limit. -/
theorem splitIntoChunks_width_witness :
    "ccc".toList ∈ splitIntoChunks "aaa bb  ccc\tdddddddd e".toList 6 ∧
    "dddddddd".toList ∈ splitIntoChunks "aaa bb  ccc\tdddddddd e".toList 6 ∧
    ("ccc".toList ≠ [] ∧
      ((byteLen "ccc".toList : Int) ≤ 6 ∨
        ("ccc".toList ∈ fields "aaa bb  ccc\tdddddddd e".toList ∧
          fields "ccc".toList = ["ccc".toList])) ∧
      ((∀ w ∈ fields "aaa bb  ccc\tdddddddd e".toList, (byteLen w : Int) ≤ 6) →
        (byteLen "ccc".toList : Int) ≤ 6)) :=
  ⟨by decide, by decide,
    splitIntoChunks_width "aaa bb  ccc\tdddddddd e".toList 6 "ccc".toList (by decide)⟩

/-! ### The multi-line writer -/

theorem escapeChar_ne_nil (c : Char) : escapeChar c ≠ [] := by
  unfold escapeChar
  split_ifs <;> simp

theorem escapeString_eq_nil (s : Str) (h : escapeString s = []) : s = [] := by
  cases s with
  | nil => rfl
  | cons c s =>
    rw [escapeString_cons] at h
    exact absurd (List.append_eq_nil.mp h).1 (escapeChar_ne_nil c)

/-- C10, amended. Multi-line writer threshold: `writeTranslatedString` writes the single
line `<indent><prefix> "<escaped text>"` if and only if the text itself (not its escaped
form) is at most 70 bytes long, and otherwise writes `<indent><prefix> ""` followed by one
line `<indent>"<escaped chunk>"` per chunk of `splitIntoChunks text 70`. -/
theorem writeTranslatedString_threshold (pfx text originalLine : Str) :
    (writeTranslatedString pfx text originalLine =
        [indentOf originalLine ++ pfx ++ " \"".toList ++ escapeString text ++ "\"".toList]
      ↔ byteLen text ≤ 70) ∧
    (¬ byteLen text ≤ 70 →
      writeTranslatedString pfx text originalLine =
        (indentOf originalLine ++ pfx ++ " \"\"".toList) ::
          (splitIntoChunks text 70).map (fun chunk =>
            indentOf originalLine ++ "\"".toList ++ escapeString chunk ++ "\"".toList)) := by
  constructor
  · constructor
    · intro h
      by_contra hlen
      simp only [writeTranslatedString, hlen, if_false, List.cons.injEq] at h
      have h1 := h.1
      simp only [String.toList, List.append_assoc, List.append_cancel_left_eq] at h1
      simp only [List.cons_append, List.nil_append, List.cons.injEq, true_and] at h1
      have h2 : escapeString text = [] := by
        cases hes : escapeString text with
        | nil => rfl
        | cons c r => rw [hes] at h1; simp at h1
      have h3 := escapeString_eq_nil text h2
      rw [h3] at hlen
      exact hlen (by decide)
    · intro h
      simp [writeTranslatedString, h]
  · intro h
    simp [writeTranslatedString, h]

/-- C10 as stated fails: a text of 36 double quotes is 36 bytes long and its escaped
form is 72 bytes long, yet it is written on a single line. -/
theorem writeTranslatedString_escaped_length_counterexample :
    ¬ (writeTranslatedString "msgstr".toList (List.replicate 36 '"') "msgstr \"\"".toList =
        [indentOf "msgstr \"\"".toList ++ "msgstr".toList ++ " \"".toList ++
          escapeString (List.replicate 36 '"') ++ "\"".toList]
      ↔ byteLen (escapeString (List.replicate 36 '"')) ≤ 70) := by
  decide

/-! ### The entries built by the parser -/

theorem parseLine_blank (st : ParseState) (line : Str) (h : trimSpace line = []) :
    parseLine st line =
      if st.rawLines.length > 0 then
        { st with
          entries := st.entries ++ [{ st.currentEntry with RawLines := st.rawLines }]
          currentEntry := {}
          rawLines := [line] }
      else { st with rawLines := st.rawLines ++ [line] } := by
  simp [parseLine, h]

theorem parseLine_nonblank (st : ParseState) (line : Str) (h : trimSpace line ≠ []) :
    parseLine st line =
      { st with
        rawLines := st.rawLines ++ [line]
        currentEntry := (entryStep (st.currentEntry, st.currentField) line).1
        currentField := (entryStep (st.currentEntry, st.currentField) line).2 } := by
  unfold parseLine entryStep
  simp only [h, if_false]
  split_ifs <;> rfl

theorem entryStep_blank (acc : Entry × FieldKind) (line : Str) (h : trimSpace line = []) :
    entryStep acc line = acc := by
  simp [entryStep, h]

theorem updateEntryField_rawLines (e : Entry) (f : FieldKind) (v : Str) :
    (updateEntryField e f v).RawLines = e.RawLines := by
  cases f <;> rfl

theorem appendToEntryField_rawLines (e : Entry) (f : FieldKind) (v : Str) :
    (appendToEntryField e f v).RawLines = e.RawLines := by
  cases f <;> try rfl
  unfold appendToEntryField
  simp only
  split <;> rfl

theorem entryStep_rawLines (acc : Entry × FieldKind) (line : Str) :
    (entryStep acc line).1.RawLines = acc.1.RawLines := by
  unfold entryStep
  split_ifs
  · rfl
  · simp only; split_ifs <;> rfl
  · exact updateEntryField_rawLines _ _ _
  · exact appendToEntryField_rawLines _ _ _
  · rfl

theorem foldl_entryStep_rawLines (raw : List Str) (acc : Entry × FieldKind) :
    (raw.foldl entryStep acc).1.RawLines = acc.1.RawLines := by
  induction raw generalizing acc with
  | nil => rfl
  | cons l raw ih => rw [List.foldl_cons, ih, entryStep_rawLines]

theorem entryOf_rawLines (f0 : FieldKind) (raw : List Str) : (entryOf f0 raw).RawLines = raw :=
  rfl

theorem parseInv_step (st : ParseState) (line : Str) (h : ParseInv st) :
    ParseInv (parseLine st line) := by
  obtain ⟨⟨f0, hcur⟩, hclosed⟩ := h
  by_cases hb : trimSpace line = []
  · rw [parseLine_blank st line hb]
    by_cases hr : st.rawLines.length > 0
    · rw [if_pos hr]
      refine ⟨⟨st.currentField, ?_⟩, ?_⟩
      · simp [entryStep_blank _ _ hb]
      · intro e he
        simp only [List.mem_append, List.mem_singleton] at he
        rcases he with he | he
        · exact hclosed e he
        · refine ⟨f0, ?_⟩
          subst he
          have h1 : st.currentEntry = (st.rawLines.foldl entryStep ({}, f0)).1 := by
            rw [← hcur]
          simp only [entryOf]
          rw [← h1]
    · rw [if_neg hr]
      have hnil : st.rawLines = [] := by
        cases hrl : st.rawLines with
        | nil => rfl
        | cons a l => rw [hrl] at hr; simp at hr
      refine ⟨⟨f0, ?_⟩, hclosed⟩
      simp only [List.foldl_append, List.foldl_cons, List.foldl_nil]
      rw [entryStep_blank _ _ hb, ← hcur]
  · rw [parseLine_nonblank st line hb]
    refine ⟨⟨f0, ?_⟩, hclosed⟩
    simp only [List.foldl_append, List.foldl_cons, List.foldl_nil]
    rw [← hcur]

theorem parseInv_foldl (lines : List Str) (st : ParseState) (h : ParseInv st) :
    ParseInv (lines.foldl parseLine st) := by
  induction lines generalizing st with
  | nil => exact h
  | cons l lines ih => exact ih _ (parseInv_step st l h)

theorem parseInv_init : ParseInv {} :=
  ⟨⟨.none, rfl⟩, by intro e he; cases he⟩

/-- Every entry returned by `parseEntries` is determined by its raw lines and by the
field that was current at its first line. -/
theorem parseEntries_entryOf (lines : List Str) (e : Entry) (he : e ∈ parseEntries lines) :
    ∃ f0, e = entryOf f0 e.RawLines := by
  have hinv := parseInv_foldl lines {} parseInv_init
  obtain ⟨⟨f0, hcur⟩, hclosed⟩ := hinv
  unfold parseEntries parseFinish at he
  split_ifs at he with hr
  · simp only [List.mem_append, List.mem_singleton] at he
    rcases he with he | he
    · exact hclosed e he
    · refine ⟨f0, ?_⟩
      subst he
      have h1 : (lines.foldl parseLine {}).currentEntry =
          ((lines.foldl parseLine {}).rawLines.foldl entryStep ({}, f0)).1 := by
        rw [← hcur]
      simp only [entryOf]
      rw [← h1]
  · exact hclosed e he

/-! ### Facts about the string functions -/

theorem all_of_all_dropWhile (p : Char → Bool) (s : Str)
    (h : ∀ c ∈ s.dropWhile p, p c = true) : ∀ c ∈ s, p c = true := by
  induction s with
  | nil => intro c hc; cases hc
  | cons x s ih =>
    by_cases hx : p x = true
    · have h2 : ∀ c ∈ s.dropWhile p, p c = true := by
        simpa [List.dropWhile, hx] using h
      intro c hc
      simp only [List.mem_cons] at hc
      rcases hc with hc | hc
      · rw [hc]; exact hx
      · exact ih h2 c hc
    · have h2 := h x (by simp [List.dropWhile, hx])
      exact absurd h2 hx

theorem trimSpace_eq_nil_iff (s : Str) : trimSpace s = [] ↔ ∀ c ∈ s, isSpace c = true := by
  unfold trimSpace
  rw [List.reverse_eq_nil_iff, List.dropWhile_eq_nil_iff]
  constructor
  · intro h
    exact all_of_all_dropWhile isSpace s (fun c hc => h c (by simpa using hc))
  · intro h c hc
    have hc2 : c ∈ s.dropWhile isSpace := by simpa using hc
    exact h c ((List.dropWhile_sublist isSpace).subset hc2)

theorem dropWhile_append_singleton (p : Char → Bool) (l : Str) (c : Char) (hc : p c = false) :
    (l ++ [c]).dropWhile p = l.dropWhile p ++ [c] := by
  induction l with
  | nil => simp [List.dropWhile, hc]
  | cons x l ih =>
    by_cases hx : p x = true
    · simp [List.dropWhile, hx, ih]
    · simp [List.dropWhile, hx]

/-- Trimming keeps a first code point that is not white space. -/
theorem trimSpace_cons (c : Char) (s : Str) (hc : isSpace c = false) :
    trimSpace (c :: s) = c :: (s.reverse.dropWhile isSpace).reverse := by
  unfold trimSpace
  simp [List.dropWhile, hc, dropWhile_append_singleton]

theorem startsWith_trimSpace_cons (c d : Char) (s p : Str) (hc : isSpace c = false) :
    startsWith (trimSpace (c :: s)) (d :: p) =
      (d == c && startsWith (s.reverse.dropWhile isSpace).reverse p) := by
  rw [trimSpace_cons c s hc, startsWith_cons_cons]

theorem trimSpace_cons_ne_nil (c : Char) (s : Str) (hc : isSpace c = false) :
    trimSpace (c :: s) ≠ [] := by
  rw [trimSpace_cons c s hc]; simp

theorem startsWith_blank (b : Str) (hb : trimSpace b = []) (d : Char) (p : Str)
    (hd : isSpace d = false) : startsWith b (d :: p) = false := by
  cases b with
  | nil => rfl
  | cons c b =>
    have hc := (trimSpace_eq_nil_iff _).mp hb c (by simp)
    rw [startsWith_cons_cons]
    have : (d == c) = false := by
      rw [beq_eq_false_iff_ne]
      intro h; subst h; rw [hc] at hd; exact absurd hd (by simp)
    simp [this]

theorem index_append_of_not_mem (p : Str) (x : Char) (r : Str) (hp : x ∉ p) :
    index (p ++ x :: r) x = some p.length := by
  induction p with
  | nil => simp [index]
  | cons c p ih =>
    have hc : c ≠ x := fun h => hp (by simp [h])
    have hp2 : x ∉ p := fun h => hp (by simp [h])
    simp [index, hc, ih hp2]

theorem lastIndex_append_singleton (l : Str) (x : Char) :
    lastIndex (l ++ [x]) x = some l.length := by
  induction l with
  | nil => simp [lastIndex]
  | cons c l ih => simp [lastIndex, ih]

/-- The payload of a line `p"S"` whose part `p` before the first quote has no quote. -/
theorem extractQuotedText_quoted (p S : Str) (hp : '"' ∉ p) :
    extractQuotedText (p ++ '"' :: (S ++ ['"'])) = S := by
  have h1 : index (p ++ '"' :: (S ++ ['"'])) '"' = some p.length :=
    index_append_of_not_mem p '"' _ hp
  have h2 : lastIndex (p ++ '"' :: (S ++ ['"'])) '"' = some (p ++ '"' :: S).length := by
    have := lastIndex_append_singleton (p ++ '"' :: S) '"'
    simpa using this
  unfold extractQuotedText
  rw [h1, h2]
  simp only
  rw [if_pos (by simp)]
  have h3 : (p ++ '"' :: (S ++ ['"'])).take (p ++ '"' :: S).length = p ++ '"' :: S := by
    have : p ++ '"' :: (S ++ ['"']) = (p ++ '"' :: S) ++ ['"'] := by simp
    rw [this, List.take_left' rfl]
  rw [h3]
  have h4 : p ++ '"' :: S = (p ++ ['"']) ++ S := by simp
  rw [h4, List.drop_left' (by simp)]

/-! ### The writer on the lines of an entry -/

theorem foldl_entryStep_blank (lead : List Str) (h : ∀ b ∈ lead, trimSpace b = [])
    (acc : Entry × FieldKind) : lead.foldl entryStep acc = acc := by
  induction lead with
  | nil => rfl
  | cons b lead ih =>
    rw [List.foldl_cons, entryStep_blank _ _ (h b (by simp))]
    exact ih (fun c hc => h c (by simp [hc]))

/-- A blank line is written unchanged while `skipNextEmptyLine` is not set. -/
theorem writeLine_blank (e : Entry) (lang : Str) (tc : Translator) (i : Nat) (b : Str)
    (hb : trimSpace b = []) : writeLine e lang tc i false b = ([b], false) := by
  have h1 : startsWith b "#,".toList = false := startsWith_blank b hb _ _ (by decide)
  have h2 : startsWith b "msgstr \"".toList = false := startsWith_blank b hb _ _ (by decide)
  have h3 : startsWith b "msgstr[".toList = false := startsWith_blank b hb _ _ (by decide)
  simp only [String.toList] at h1 h2 h3
  simp [writeLine, h1, h2, h3, hb, startsWith_nil_cons]

theorem writeLines_cons (e : Entry) (lang : Str) (tc : Translator) (i : Nat) (skip : Bool)
    (line : Str) (rest : List Str) :
    writeLines e lang tc i skip (line :: rest) =
      (writeLine e lang tc i skip line).1 ++
        writeLines e lang tc (i + 1) (writeLine e lang tc i skip line).2 rest := rfl

theorem writeLines_blank_lead (e : Entry) (lang : Str) (tc : Translator) (lead : List Str)
    (h : ∀ b ∈ lead, trimSpace b = []) (i : Nat) (rest : List Str) :
    writeLines e lang tc i false (lead ++ rest) =
      lead ++ writeLines e lang tc (i + lead.length) false rest := by
  induction lead generalizing i with
  | nil => simp
  | cons b lead ih =>
    rw [List.cons_append, writeLines_cons, writeLine_blank e lang tc i b (h b (by simp))]
    simp only [List.singleton_append, List.cons_append, List.length_cons, List.cons.injEq,
      true_and]
    rw [ih (fun c hc => h c (by simp [hc]))]
    have : i + 1 + lead.length = i + (lead.length + 1) := by omega
    rw [this]
    rfl

theorem entryStep_msgidLine (acc : Entry × FieldKind) (S : Str) :
    entryStep acc (msgidLine S) = ({ acc.1 with MsgID := S }, .msgid) := by
  have hx : extractQuotedText (msgidLine S) = S := by
    have := extractQuotedText_quoted "msgid ".toList S (by decide)
    simpa [msgidLine] using this
  have ht : trimSpace (msgidLine S) ≠ [] := by
    simpa [msgidLine] using trimSpace_cons_ne_nil 'm' _ (by decide)
  have hf : getMsgFieldType (msgidLine S) = .msgid := by
    simp [getMsgFieldType, msgidLine, startsWith_cons_cons, startsWith_nil]
  unfold entryStep
  rw [if_neg ht, hf, hx]
  simp [msgidLine, startsWith_cons_cons, startsWith_nil, updateEntryField]

theorem entryStep_msgstrLine (acc : Entry × FieldKind) (S : Str) :
    entryStep acc (msgstrLine S) = ({ acc.1 with MsgStr := S }, .msgstr) := by
  have hx : extractQuotedText (msgstrLine S) = S := by
    have := extractQuotedText_quoted "msgstr ".toList S (by decide)
    simpa [msgstrLine] using this
  have ht : trimSpace (msgstrLine S) ≠ [] := by
    simpa [msgstrLine] using trimSpace_cons_ne_nil 'm' _ (by decide)
  have hf : getMsgFieldType (msgstrLine S) = .msgstr := by
    simp [getMsgFieldType, msgstrLine, startsWith_cons_cons, startsWith_nil]
  unfold entryStep
  rw [if_neg ht, hf, hx]
  simp [msgstrLine, startsWith_cons_cons, startsWith_nil, updateEntryField]

/-- A line `msgid "S"` is written unchanged. -/
theorem writeLine_msgidLine (e : Entry) (lang : Str) (tc : Translator) (i : Nat)
    (skip : Bool) (S : Str) :
    writeLine e lang tc i skip (msgidLine S) = ([msgidLine S], skip) := by
  have ht : trimSpace (msgidLine S) ≠ [] := by
    simpa [msgidLine] using trimSpace_cons_ne_nil 'm' _ (by decide)
  have hq : startsWith (trimSpace (msgidLine S)) "\"".toList = false := by
    simp [msgidLine, startsWith_trimSpace_cons 'm' '"' _ _ (by decide)]
  unfold writeLine
  simp only [ht, hq]
  simp [msgidLine, startsWith_cons_cons, startsWith_nil]

theorem indentOf_cons (c : Char) (s : Str) (h1 : c ≠ ' ') (h2 : c ≠ '\t') :
    indentOf (c :: s) = [] := by
  have e1 : (c == ' ') = false := by simpa using h1
  have e2 : (c == '\t') = false := by simpa using h2
  simp [indentOf, List.takeWhile, e1, e2]

/-- A line `msgstr "..."` of an entry that is translated is replaced by the translated
field. -/
theorem writeLine_msgstrLine (e : Entry) (lang : Str) (tc : Translator) (i : Nat)
    (skip : Bool) (S : Str) (hT : e.MsgStr = [] ∨ e.IsFuzzy = true) (hID : e.MsgID ≠ []) :
    writeLine e lang tc i skip (msgstrLine S) =
      (writeTranslatedString "msgstr".toList (translateText e.MsgID lang tc) (msgstrLine S),
        skip) := by
  have ht : trimSpace (msgstrLine S) ≠ [] := by
    simpa [msgstrLine] using trimSpace_cons_ne_nil 'm' _ (by decide)
  have hs : (decide (e.MsgStr = []) || e.IsFuzzy) = true := by
    rcases hT with h | h <;> simp [h]
  unfold writeLine
  simp only [ht, hs]
  simp [msgstrLine, startsWith_cons_cons, startsWith_nil, hID]

/-- C2. Selective translation: for an entry returned by the parser whose raw lines are
(blank lines followed by) `msgid "S"` and `msgstr ""` with `S` non-empty, and a translation
capability that returns `T`, at most 70 bytes long, for `S`, the writer writes the msgid
line unchanged and `msgstr "<escapeString T>"` in place of the msgstr line. -/
theorem selective_translation (lines : List Str) (e : Entry) (lead : List Str)
    (S T lang : Str) (tc : Translator)
    (he : e ∈ parseEntries lines)
    (hlead : ∀ b ∈ lead, trimSpace b = [])
    (hraw : e.RawLines = lead ++ [msgidLine S, msgstrLine []])
    (hS : S ≠ [])
    (htc : tc S "en".toList lang = some T)
    (hT : byteLen T ≤ 70) :
    e.MsgID = S ∧ e.MsgStr = [] ∧
    writeEntry e lang tc = lead ++ [msgidLine S, msgstrLine (escapeString T)] := by
  obtain ⟨f0, hf0⟩ := parseEntries_entryOf lines e he
  rw [hraw] at hf0
  have hID : e.MsgID = S := by
    rw [hf0]
    simp [entryOf, List.foldl_append, foldl_entryStep_blank lead hlead, entryStep_msgidLine,
      entryStep_msgstrLine]
  have hStr : e.MsgStr = [] := by
    rw [hf0]
    simp [entryOf, List.foldl_append, foldl_entryStep_blank lead hlead, entryStep_msgidLine,
      entryStep_msgstrLine]
  refine ⟨hID, hStr, ?_⟩
  unfold writeEntry
  rw [hraw, writeLines_blank_lead e lang tc lead hlead, writeLines_cons, writeLine_msgidLine,
    writeLines_cons, writeLine_msgstrLine e lang tc _ _ _ (Or.inl hStr) (by rw [hID]; exact hS)]
  have htr : translateText e.MsgID lang tc = T := by
    rw [hID]; simp only [translateText, htc]
  rw [htr]
  have hind : indentOf (msgstrLine []) = [] := by
    simpa [msgstrLine] using indentOf_cons 'm' _ (by decide) (by decide)
  simp only [writeTranslatedString, hT, hind, if_true, writeLines]
  simp [msgstrLine]

/-- The example `Hello`, translated to `Bonjour` for the target language `fr`. -/
theorem selective_translation_witness :
    writeEntry
        { MsgID := "Hello".toList
          RawLines := ["msgid \"Hello\"".toList, "msgstr \"\"".toList] }
        "fr".toList
        (fun text _ lang =>
          if text = "Hello".toList ∧ lang = "fr".toList then some "Bonjour".toList else none) =
      ["msgid \"Hello\"".toList, "msgstr \"Bonjour\"".toList] :=
  (selective_translation ["msgid \"Hello\"".toList, "msgstr \"\"".toList]
    { MsgID := "Hello".toList
      RawLines := ["msgid \"Hello\"".toList, "msgstr \"\"".toList] }
    [] "Hello".toList "Bonjour".toList "fr".toList
    (fun text _ lang =>
      if text = "Hello".toList ∧ lang = "fr".toList then some "Bonjour".toList else none)
    (by decide) (by simp) (by decide) (by decide) (by decide) (by decide)).2.2

/-! ### Flag lines -/

theorem writeLines_append (e : Entry) (lang : Str) (tc : Translator) (a b : List Str)
    (i : Nat) (skip : Bool) :
    writeLines e lang tc i skip (a ++ b) =
      writeLines e lang tc i skip a ++
        writeLines e lang tc (i + a.length) (writeSkip e lang tc i skip a) b := by
  induction a generalizing i skip with
  | nil => simp [writeLines, writeSkip]
  | cons l a ih =>
    simp only [List.cons_append, writeLines_cons, writeSkip, ih, List.append_assoc,
      List.length_cons]
    have : i + 1 + a.length = i + (a.length + 1) := by omega
    rw [this]

theorem dropWhile_head_not (p : Char → Bool) (g : Str) (x : Char) (d : Str)
    (h : g.dropWhile p = x :: d) : p x = false := by
  induction g with
  | nil => simp at h
  | cons c g ih =>
    by_cases hc : p c = true
    · simp only [List.dropWhile, hc] at h
      exact ih h
    · simp only [List.dropWhile, hc] at h
      simp only [List.cons.injEq] at h
      rw [← h.1]
      simpa using hc

theorem rdropWhile_cons (p : Char → Bool) (x : Char) (d : Str) (hx : p x = false) :
    ((x :: d).reverse.dropWhile p).reverse = x :: (d.reverse.dropWhile p).reverse := by
  simp [dropWhile_append_singleton, hx]

theorem rdropWhile_idem (p : Char → Bool) (d : Str) :
    (((d.reverse.dropWhile p).reverse).reverse.dropWhile p).reverse =
      (d.reverse.dropWhile p).reverse := by
  simp [List.dropWhile_idempotent]

theorem trimSpace_idem (g : Str) : trimSpace (trimSpace g) = trimSpace g := by
  cases hd : g.dropWhile isSpace with
  | nil =>
    have : trimSpace g = [] := by simp [trimSpace, hd]
    rw [this]; rfl
  | cons x d =>
    have hx := dropWhile_head_not isSpace g x d hd
    have ht : trimSpace g = x :: (d.reverse.dropWhile isSpace).reverse := by
      unfold trimSpace
      rw [hd, rdropWhile_cons isSpace x d hx]
    rw [ht, trimSpace_cons x _ hx, rdropWhile_idem]

theorem trimSpace_space_cons (f : Str) : trimSpace (' ' :: f) = trimSpace f := by
  have : isSpace ' ' = true := by decide
  simp [trimSpace, List.dropWhile, this]

theorem splitGo_no_sep (sep : Char) (w : Str) (hw : sep ∉ w) (cur : Str) :
    splitGo sep cur w = [cur ++ w] := by
  induction w generalizing cur with
  | nil => simp [splitGo]
  | cons c w ih =>
    have hc : c ≠ sep := fun h => hw (by simp [h])
    simp [splitGo, hc, ih (fun h => hw (by simp [h]))]

theorem splitGo_sep (sep : Char) (w : Str) (hw : sep ∉ w) (cur rest : Str) :
    splitGo sep cur (w ++ sep :: rest) = (cur ++ w) :: splitGo sep [] rest := by
  induction w generalizing cur with
  | nil => simp [splitGo]
  | cons c w ih =>
    have hc : c ≠ sep := fun h => hw (by simp [h])
    simp [splitGo, hc, ih (fun h => hw (by simp [h]))]

/-- The pieces produced by `strings.Split` do not contain the separator. -/
theorem splitGo_mem_no_sep (sep : Char) (s cur : Str) (hcur : sep ∉ cur) :
    ∀ w ∈ splitGo sep cur s, sep ∉ w := by
  induction s generalizing cur with
  | nil => intro w hw; simp [splitGo] at hw; subst hw; exact hcur
  | cons c s ih =>
    intro w hw
    by_cases hc : c = sep
    · simp only [splitGo, hc, if_true, List.mem_cons] at hw
      rcases hw with hw | hw
      · subst hw; exact hcur
      · exact ih [] (by simp) w hw
    · simp only [splitGo, hc, if_false] at hw
      refine ih (cur ++ [c]) ?_ w hw
      simp only [List.mem_append, List.mem_singleton, not_or]
      exact ⟨hcur, fun h => hc h.symm⟩

/-- Splitting a joined list of separator-free pieces gives the pieces back. -/
theorem split_join (sep : Char) (xs : List Str) (hne : xs ≠ []) (hxs : ∀ w ∈ xs, sep ∉ w) :
    split (join xs [sep]) sep = xs := by
  induction xs with
  | nil => exact absurd rfl hne
  | cons a xs ih =>
    cases xs with
    | nil =>
      rw [join_singleton, split, splitGo_no_sep sep a (hxs a (by simp))]
      simp
    | cons b xs =>
      have h1 := ih (by simp) (fun w hw => hxs w (by simp [hw]))
      rw [join_cons_cons, split, List.append_assoc, List.singleton_append,
        splitGo_sep sep a (hxs a (by simp))]
      rw [split] at h1
      rw [h1]
      simp

theorem space_cons_join (nf : List Str) (hne : nf ≠ []) :
    ' ' :: join nf [',', ' '] = join (nf.map (fun f => ' ' :: f)) [','] := by
  induction nf with
  | nil => exact absurd rfl hne
  | cons a nf ih =>
    cases nf with
    | nil => simp [join_singleton]
    | cons b nf =>
      have h1 := ih (by simp)
      simp only [List.map_cons] at h1 ⊢
      rw [join_cons_cons, join_cons_cons, ← h1]
      simp

theorem newFlags_eq (line : Str) (h : startsWith line "#,".toList = true) :
    newFlags line = flagsWithoutFuzzy line := by
  simp only [newFlags, flagsWithoutFuzzy, trimPrefix, h, if_true]
  rfl

theorem mem_newFlags (line f : Str) (hf : f ∈ newFlags line) :
    ',' ∉ f ∧ trimSpace f = f ∧ f ≠ "fuzzy".toList := by
  simp only [newFlags, List.mem_filter, List.mem_map] at hf
  obtain ⟨⟨g, hg, rfl⟩, hne⟩ := hf
  have hg2 : ',' ∉ g := splitGo_mem_no_sep ',' _ [] (by simp) g hg
  refine ⟨?_, trimSpace_idem g, by simpa using hne⟩
  intro hmem
  apply hg2
  have h1 : trimSpace g = ((g.dropWhile isSpace).reverse.dropWhile isSpace).reverse := rfl
  rw [h1, List.mem_reverse] at hmem
  have h2 := (List.dropWhile_sublist isSpace).subset hmem
  rw [List.mem_reverse] at h2
  exact (List.dropWhile_sublist isSpace).subset h2

/-- The flags carried by the flag line that the writer emits are the flags it kept. -/
theorem flagsOf_emitted (line : Str) (hne : newFlags line ≠ []) :
    flagsOf ("#, ".toList ++ join (newFlags line) ", ".toList) = newFlags line := by
  have h1 : ("#, ".toList ++ join (newFlags line) ", ".toList).drop 2 =
      ' ' :: join (newFlags line) [',', ' '] := by
    simp
  unfold flagsOf
  rw [h1, space_cons_join _ hne, split_join ',' _ (by simpa using hne)]
  · rw [List.map_map]
    conv_rhs => rw [← List.map_id (newFlags line)]
    apply List.map_congr_left
    intro f hf
    simp only [Function.comp, id]
    rw [trimSpace_space_cons]
    exact (mem_newFlags line f hf).2.1
  · intro w hw
    simp only [List.mem_map] at hw
    obtain ⟨f, hf, rfl⟩ := hw
    have := (mem_newFlags line f hf).1
    simp only [List.mem_cons, not_or]
    exact ⟨by decide, this⟩

/-- A `#,` line is always handled by the flag branch of the writer. -/
theorem writeLine_flag (e : Entry) (lang : Str) (tc : Translator) (i : Nat) (skip : Bool)
    (line : Str) (h : startsWith line "#,".toList = true) :
    writeLine e lang tc i skip line =
      if (newFlags line).length > 0 then
        (["#, ".toList ++ join (newFlags line) ", ".toList], skip)
      else ([], true) := by
  have ht : trimSpace line ≠ [] := by
    match line, h with
    | c :: r, h =>
      simp only [String.toList, startsWith_cons_cons, Bool.and_eq_true, beq_iff_eq] at h
      rw [← h.1]
      exact trimSpace_cons_ne_nil '#' r (by decide)
  unfold writeLine
  simp only [ht, h, decide_False, Bool.and_false, Bool.false_eq_true, if_false, if_true]

theorem indentOf_all (l : Str) : ∀ c ∈ indentOf l, c = ' ' ∨ c = '\t' := by
  intro c hc
  unfold indentOf at hc
  split_ifs at hc
  · cases hc
  · have := List.mem_takeWhile_imp hc
    simpa using this

theorem startsWith_indent (ind : Str) (hind : ∀ c ∈ ind, c = ' ' ∨ c = '\t') (x : Char)
    (rest p : Str) (hx : x ≠ '#') : startsWith (ind ++ x :: rest) ('#' :: p) = false := by
  cases ind with
  | nil =>
    rw [List.nil_append, startsWith_cons_cons]
    have : ('#' == x) = false := by simpa using fun h => hx h.symm
    simp [this]
  | cons c ind =>
    rw [List.cons_append, startsWith_cons_cons]
    have hc := hind c (by simp)
    have : ('#' == c) = false := by
      rcases hc with hc | hc <;> subst hc <;> decide
    simp [this]

/-- No line written for a translated field starts with `#`. -/
theorem writeTranslatedString_not_flag (x t l out : Str)
    (hout : out ∈ writeTranslatedString ("msgstr".toList ++ x) t l) :
    startsWith out "#,".toList = false := by
  unfold writeTranslatedString at hout
  split_ifs at hout
  · simp only [List.mem_singleton] at hout
    subst hout
    simpa using startsWith_indent (indentOf l) (indentOf_all l) 'm' _ [','] (by decide)
  · simp only [List.mem_cons, List.mem_map] at hout
    rcases hout with hout | ⟨ch, _, hout⟩
    · subst hout
      simpa using startsWith_indent (indentOf l) (indentOf_all l) 'm' _ [','] (by decide)
    · subst hout
      simpa using startsWith_indent (indentOf l) (indentOf_all l) '"' _ [','] (by decide)

/-- A written line that starts with `#,` is the rewritten form of a `#,` raw line. -/
theorem writeLine_out_flag (e : Entry) (lang : Str) (tc : Translator) (i : Nat) (skip : Bool)
    (line out : Str) (hout : out ∈ (writeLine e lang tc i skip line).1)
    (hflag : startsWith out "#,".toList = true) :
    newFlags line ≠ [] ∧ out = "#, ".toList ++ join (newFlags line) ", ".toList := by
  by_cases h : startsWith line "#,".toList = true
  · rw [writeLine_flag e lang tc i skip line h] at hout
    split_ifs at hout with hlen
    · simp only [List.mem_singleton] at hout
      exact ⟨by intro hn; rw [hn] at hlen; simp at hlen, hout⟩
    · cases hout
  · exfalso
    have hms : ∀ x t, out ∈ writeTranslatedString ("msgstr".toList ++ x) t line → False := by
      intro x t hx
      rw [writeTranslatedString_not_flag x t line out hx] at hflag
      exact absurd hflag (by simp)
    have hms0 : ∀ t, out ∈ writeTranslatedString "msgstr".toList t line → False := by
      intro t ht
      exact hms [] t (by simpa using ht)
    have hself : out ∈ [line] → False := by
      intro hx
      simp only [List.mem_singleton] at hx
      rw [hx] at hflag
      exact h hflag
    have h2 : startsWith line "#,".toList = false := by simpa using h
    unfold writeLine at hout
    simp only [h2, Bool.false_eq_true, if_false] at hout
    split_ifs at hout
    all_goals first
      | exact hself hout
      | exact hms0 _ hout
      | (simp only [List.not_mem_nil] at hout)
      | (split at hout
         · exact hms _ _ hout
         · simp only [List.not_mem_nil] at hout)

theorem writeLines_mem (e : Entry) (lang : Str) (tc : Translator) (lines : List Str)
    (i : Nat) (skip : Bool) (out : Str) (hout : out ∈ writeLines e lang tc i skip lines) :
    ∃ line ∈ lines, ∃ j sk, out ∈ (writeLine e lang tc j sk line).1 := by
  induction lines generalizing i skip with
  | nil => simp [writeLines] at hout
  | cons l lines ih =>
    rw [writeLines_cons, List.mem_append] at hout
    rcases hout with hout | hout
    · exact ⟨l, by simp, i, skip, hout⟩
    · obtain ⟨line, hl, j, sk, hj⟩ := ih _ _ hout
      exact ⟨line, by simp [hl], j, sk, hj⟩

/-- C3. Fuzzy flag stripping: for every `#,` line among the raw lines of an entry, the
writer writes, between what it writes for the lines before and after it, the line `#, `
followed by the trimmed comma-separated flags other than `fuzzy`, in order and joined by
`, `, or nothing when no flag remains; and no line written for the entry that starts with
`#,` carries the flag `fuzzy`. -/
theorem fuzzy_flag_stripping (e : Entry) (lang : Str) (tc : Translator) :
    (∀ pre line post, e.RawLines = pre ++ line :: post →
      startsWith line "#,".toList = true →
      writeEntry e lang tc =
        writeLines e lang tc 0 false pre ++
        (if flagsWithoutFuzzy line = [] then []
          else ["#, ".toList ++ join (flagsWithoutFuzzy line) ", ".toList]) ++
        writeLines e lang tc (pre.length + 1)
          (if flagsWithoutFuzzy line = [] then true else writeSkip e lang tc 0 false pre)
          post) ∧
    (∀ out ∈ writeEntry e lang tc, startsWith out "#,".toList = true →
      "fuzzy".toList ∉ flagsOf out) := by
  constructor
  · intro pre line post hraw hflag
    unfold writeEntry
    rw [hraw, writeLines_append, writeLines_cons, writeLine_flag e lang tc _ _ line hflag,
      newFlags_eq line hflag]
    by_cases hn : flagsWithoutFuzzy line = []
    · simp [hn]
    · have hlen : (flagsWithoutFuzzy line).length > 0 := List.length_pos.mpr hn
      simp [hn, hlen]
  · intro out hout hflag
    obtain ⟨line, _, j, sk, hj⟩ := writeLines_mem e lang tc _ _ _ out hout
    obtain ⟨hne, heq⟩ := writeLine_out_flag e lang tc j sk line out hj hflag
    rw [heq, flagsOf_emitted line hne]
    intro hmem
    exact (mem_newFlags line _ hmem).2.2 rfl

/-- The example `#, fuzzy, c-format`, written as `#, c-format`. -/
theorem fuzzy_flag_stripping_witness :
    writeEntry
        { MsgID := "a".toList, MsgStr := "b".toList, IsFuzzy := true
          RawLines := ["#, fuzzy, c-format".toList, "msgid \"a\"".toList,
            "msgstr \"b\"".toList] }
        "fr".toList (fun _ _ _ => none) =
      ["#, c-format".toList, "msgid \"a\"".toList, "msgstr \"a\"".toList] ∧
    (∀ out ∈ writeEntry
        { MsgID := "a".toList, MsgStr := "b".toList, IsFuzzy := true
          RawLines := ["#, fuzzy, c-format".toList, "msgid \"a\"".toList,
            "msgstr \"b\"".toList] }
        "fr".toList (fun _ _ _ => none),
      startsWith out "#,".toList = true → "fuzzy".toList ∉ flagsOf out) :=
  ⟨by decide,
    (fuzzy_flag_stripping
      { MsgID := "a".toList, MsgStr := "b".toList, IsFuzzy := true
        RawLines := ["#, fuzzy, c-format".toList, "msgid \"a\"".toList,
          "msgstr \"b\"".toList] }
      "fr".toList (fun _ _ _ => none)).2⟩

/-! ### Plural fields -/

theorem startsWith_split (s p : Str) (h : startsWith s p = true) : ∃ r, s = p ++ r := by
  induction p generalizing s with
  | nil => exact ⟨s, rfl⟩
  | cons d p ih =>
    cases s with
    | nil => simp [startsWith] at h
    | cons c s =>
      rw [startsWith_cons_cons, Bool.and_eq_true, beq_iff_eq] at h
      obtain ⟨r, hr⟩ := ih s h.2
      exact ⟨r, by rw [h.1, hr]; rfl⟩

theorem index_bracket (line : Str) (h : startsWith line "msgstr[".toList = true) :
    index line '[' = some 6 := by
  obtain ⟨r, hr⟩ := startsWith_split line _ h
  have := index_append_of_not_mem "msgstr".toList '[' r (by decide)
  rw [hr]
  simpa using this

theorem trimSpace_ne_nil_of_startsWith (line : Str) (c : Char) (p : Str)
    (hc : isSpace c = false) (h : startsWith line (c :: p) = true) : trimSpace line ≠ [] := by
  match line, h with
  | d :: r, h =>
    simp only [startsWith_cons_cons, Bool.and_eq_true, beq_iff_eq] at h
    rw [← h.1]
    exact trimSpace_cons_ne_nil c r hc

/-- The plural branch of the writer: the source text is chosen by the text of the line,
`msgstr[0]` or not. -/
theorem writeLine_plural (e : Entry) (lang : Str) (tc : Translator) (i : Nat) (skip : Bool)
    (line : Str) (stop : Nat)
    (hT : e.MsgStr = [] ∨ e.IsFuzzy = true) (hsrc : e.MsgID ≠ [] ∨ e.MsgIDPlural ≠ [])
    (hpl : startsWith line "msgstr[".toList = true) (hstop : index line ']' = some stop) :
    writeLine e lang tc i skip line =
      (writeTranslatedString ("msgstr".toList ++ (line.take (stop + 1)).drop 6)
        (translateText
          (if startsWith line "msgstr[0]".toList = true then e.MsgID else e.MsgIDPlural)
          lang tc) line, skip) := by
  have ht : trimSpace line ≠ [] :=
    trimSpace_ne_nil_of_startsWith line 'm' _ (by decide) hpl
  have hs : (decide (e.MsgStr = []) || e.IsFuzzy) = true := by
    rcases hT with h | h <;> simp [h]
  have hs2 : (decide (e.MsgID ≠ []) || decide (e.MsgIDPlural ≠ [])) = true := by
    rcases hsrc with h | h <;> simp [h]
  have hf : startsWith line "#,".toList = false := by
    match line, hpl with
    | c :: r, hpl =>
      simp only [String.toList, startsWith_cons_cons, Bool.and_eq_true, beq_iff_eq] at hpl
      rw [← hpl.1]
      rfl
  unfold writeLine
  simp only [ht, hs, hs2, hf, hpl, index_bracket line hpl, hstop, decide_False,
    Bool.and_false, Bool.false_eq_true, if_false, if_true, Bool.not_true, Bool.and_self]

/-- C5, amended. Plural fill: for an entry with non-empty `MsgID` and `MsgIDPlural` that
needs translation, a raw line that starts with `msgstr[` and has a closing bracket is
replaced by the field with the same bracket text and the translation of `MsgID` when the
line starts with `msgstr[0]`, of `MsgIDPlural` otherwise, whatever its position among the
plural lines. -/
theorem plural_fill_by_bracket_text (e : Entry) (lang : Str) (tc : Translator)
    (pre post : List Str) (line : Str) (stop : Nat)
    (hsrc : e.MsgID ≠ [] ∧ e.MsgIDPlural ≠ [])
    (hT : e.MsgStr = [] ∨ e.IsFuzzy = true)
    (hraw : e.RawLines = pre ++ line :: post)
    (hpl : startsWith line "msgstr[".toList = true) (hstop : index line ']' = some stop) :
    writeEntry e lang tc =
      writeLines e lang tc 0 false pre ++
      writeTranslatedString ("msgstr".toList ++ (line.take (stop + 1)).drop 6)
        (translateText
          (if startsWith line "msgstr[0]".toList = true then e.MsgID else e.MsgIDPlural)
          lang tc) line ++
      writeLines e lang tc (pre.length + 1) (writeSkip e lang tc 0 false pre) post := by
  unfold writeEntry
  rw [hraw, writeLines_append, writeLines_cons,
    writeLine_plural e lang tc _ _ line stop hT (Or.inl hsrc.1) hpl hstop]
  simp

/-- The example `one item` / `many items`, translated to `un` / `plusieurs`. -/
theorem plural_fill_by_bracket_text_witness :
    writeEntry
        { MsgID := "one item".toList, MsgIDPlural := "many items".toList
          MsgStrPlural := [[], []]
          RawLines := ["msgid \"one item\"".toList, "msgid_plural \"many items\"".toList,
            "msgstr[0] \"\"".toList, "msgstr[1] \"\"".toList] }
        "fr".toList exampleTranslator =
      ["msgid \"one item\"".toList, "msgid_plural \"many items\"".toList,
        "msgstr[0] \"un\"".toList, "msgstr[1] \"plusieurs\"".toList] :=
  (plural_fill_by_bracket_text
    { MsgID := "one item".toList, MsgIDPlural := "many items".toList
      MsgStrPlural := [[], []]
      RawLines := ["msgid \"one item\"".toList, "msgid_plural \"many items\"".toList,
        "msgstr[0] \"\"".toList, "msgstr[1] \"\"".toList] }
    "fr".toList exampleTranslator
    ["msgid \"one item\"".toList, "msgid_plural \"many items\"".toList]
    ["msgstr[1] \"\"".toList] "msgstr[0] \"\"".toList 8
    (by decide) (Or.inl (by decide)) (by decide) (by decide) (by decide)).trans
    (by decide)

/-- C5 as stated fails: when `msgstr[1]` comes before `msgstr[0]`, the plural line met
first receives the translation of `MsgIDPlural` and the second that of `MsgID`. -/
theorem plural_encounter_order_counterexample :
    (parseEntries ["msgid \"one item\"".toList, "msgid_plural \"many items\"".toList,
        "msgstr[1] \"\"".toList, "msgstr[0] \"\"".toList]).map
      (fun e => (e.MsgID, e.MsgIDPlural, e.MsgStr, writeEntry e "fr".toList exampleTranslator)) =
      [("one item".toList, "many items".toList, [],
        ["msgid \"one item\"".toList, "msgid_plural \"many items\"".toList,
          "msgstr[1] \"plusieurs\"".toList, "msgstr[0] \"un\"".toList])] ∧
    translateText "one item".toList "fr".toList exampleTranslator = "un".toList ∧
    translateText "many items".toList "fr".toList exampleTranslator = "plusieurs".toList := by
  decide

/-! ### Raw lines and the round trip -/

theorem parseLine_rawLines (st : ParseState) (line : Str) :
    ((parseLine st line).entries.map Entry.RawLines).flatten ++ (parseLine st line).rawLines =
      (st.entries.map Entry.RawLines).flatten ++ st.rawLines ++ [line] := by
  by_cases hb : trimSpace line = []
  · rw [parseLine_blank st line hb]
    by_cases hr : st.rawLines.length > 0
    · simp [hr]
    · simp [hr]
  · rw [parseLine_nonblank st line hb]
    simp

theorem foldl_parseLine_rawLines (lines : List Str) (st : ParseState) :
    (((lines.foldl parseLine st).entries.map Entry.RawLines).flatten ++
        (lines.foldl parseLine st).rawLines) =
      (st.entries.map Entry.RawLines).flatten ++ st.rawLines ++ lines := by
  induction lines generalizing st with
  | nil => simp
  | cons l lines ih =>
    rw [List.foldl_cons, ih, parseLine_rawLines]
    simp

/-- The raw lines of the entries returned by `parseEntries` are the lines it was given,
in order. -/
theorem parseEntries_rawLines (lines : List Str) :
    ((parseEntries lines).map Entry.RawLines).flatten = lines := by
  have h := foldl_parseLine_rawLines lines {}
  simp only [List.map_nil, List.flatten_nil, List.nil_append] at h
  unfold parseEntries parseFinish
  split_ifs with hr
  · simpa using h
  · have hnil : (lines.foldl parseLine {}).rawLines = [] := by
      cases hrl : (lines.foldl parseLine {}).rawLines with
      | nil => rfl
      | cons a l => rw [hrl] at hr; simp at hr
    rw [hnil, List.append_nil] at h
    exact h

theorem processHeaderMetadata_rawLines (ls : List Str) (hdr : Header) (inMsgStr : Bool) :
    (processHeaderMetadata hdr inMsgStr ls).RawLines = hdr.RawLines := by
  induction ls generalizing hdr inMsgStr with
  | nil => rfl
  | cons l ls ih =>
    unfold processHeaderMetadata
    simp only []
    split_ifs <;> simp only [ih]

theorem headerPrefix_append (lines : List Str) :
    (headerPrefix lines).1 ++ (headerPrefix lines).2 = lines := by
  induction lines with
  | nil => rfl
  | cons l lines ih =>
    unfold headerPrefix
    split_ifs
    · rfl
    · simp [ih]

theorem headerEntry_append (rest : List Str) (h : (headerEntry rest).2 + 1 ≤ rest.length) :
    (headerEntry rest).1 ++ rest.drop ((headerEntry rest).2 + 1) = rest := by
  induction rest with
  | nil => simp at h
  | cons l rest ih =>
    unfold headerEntry at h ⊢
    split_ifs at h ⊢
    · simp
    · simp only [List.length_cons, Nat.add_le_add_iff_right] at h
      simp [ih h]

/-- When `ReadPoFile` returns a file, the raw lines of its header followed by the raw
lines of its entries are the lines read. -/
theorem ReadPoFile_rawLines (lines : List Str) (f : File) (h : ReadPoFile lines = some f) :
    f.Header.RawLines ++ (f.Entries.map Entry.RawLines).flatten = lines := by
  unfold ReadPoFile at h
  split_ifs at h with hle
  simp only [Option.some.injEq] at h
  subst h
  simp only [parseEntries_rawLines]
  simp only [parseHeader] at hle ⊢
  rw [processHeaderMetadata_rawLines]
  have h1 := headerPrefix_append lines
  have hlen : (headerPrefix lines).1.length + (headerPrefix lines).2.length = lines.length := by
    rw [← List.length_append, h1]
  have h2 := headerEntry_append (headerPrefix lines).2 (by omega)
  have key : ∀ (pre rest : List Str) (k : Nat),
      (pre ++ rest).drop (pre.length + k + 1) = rest.drop (k + 1) := by
    intro pre rest k
    rw [Nat.add_assoc, List.drop_append]
  have h3 := key (headerPrefix lines).1 (headerPrefix lines).2
    (headerEntry (headerPrefix lines).2).2
  rw [h1] at h3
  rw [h3, List.append_assoc, h2, h1]

/-- A line of an entry that is not translated is written unchanged, provided that a
`#,` line is already in the form in which the writer emits it. -/
theorem writeLine_verbatim (e : Entry) (lang : Str) (tc : Translator) (i : Nat) (line : Str)
    (hStr : e.MsgStr ≠ []) (hFuzzy : e.IsFuzzy = false)
    (hflag : startsWith line "#,".toList = true →
      line = "#, ".toList ++ join (flagsWithoutFuzzy line) ", ".toList) :
    writeLine e lang tc i false line = ([line], false) := by
  by_cases h : startsWith line "#,".toList = true
  · have hcanon := hflag h
    rw [writeLine_flag e lang tc i false line h, newFlags_eq line h]
    have hne : flagsWithoutFuzzy line ≠ [] := by
      intro hn
      rw [hn] at hcanon
      have h2 : line = "#, ".toList := by simpa [join_nil] using hcanon
      rw [h2] at hn
      exact absurd hn (by decide)
    rw [if_pos (List.length_pos.mpr hne), ← hcanon]
  · have h2 : startsWith line "#,".toList = false := by simpa using h
    unfold writeLine
    simp only [h2, hStr, hFuzzy, decide_False, Bool.or_false, Bool.false_and,
      Bool.false_eq_true, if_false]
    split_ifs <;> rfl

theorem writeLines_verbatim (e : Entry) (lang : Str) (tc : Translator) (lines : List Str)
    (i : Nat) (hStr : e.MsgStr ≠ []) (hFuzzy : e.IsFuzzy = false)
    (hflag : ∀ l ∈ lines, startsWith l "#,".toList = true →
      l = "#, ".toList ++ join (flagsWithoutFuzzy l) ", ".toList) :
    writeLines e lang tc i false lines = lines := by
  induction lines generalizing i with
  | nil => rfl
  | cons l lines ih =>
    rw [writeLines_cons, writeLine_verbatim e lang tc i l hStr hFuzzy (hflag l (by simp))]
    simp only [List.singleton_append, List.cons.injEq, true_and]
    exact ih (i + 1) (fun l2 hl2 => hflag l2 (by simp [hl2]))

/-- C1, amended. Round trip: when `ReadPoFile` returns a file in which every entry has a
non-empty `MsgStr` and is not fuzzy, and every `#,` line of an entry already has the form
in which the writer emits flag lines (`#, ` followed by its trimmed flags joined by `, `),
the lines written by `WritePOFile` are the lines read, for every target language and
translation capability. -/
theorem roundtrip_identity (lines : List Str) (f : File) (lang : Str) (tc : Translator)
    (hread : ReadPoFile lines = some f)
    (hdone : ∀ e ∈ f.Entries, e.MsgStr ≠ [] ∧ e.IsFuzzy = false)
    (hflags : ∀ e ∈ f.Entries, ∀ l ∈ e.RawLines, startsWith l "#,".toList = true →
      l = "#, ".toList ++ join (flagsWithoutFuzzy l) ", ".toList) :
    WritePOFile f lang tc = lines := by
  have hent : f.Entries.map (fun e => writeEntry e lang tc) = f.Entries.map Entry.RawLines := by
    apply List.map_congr_left
    intro e he
    exact writeLines_verbatim e lang tc e.RawLines 0 (hdone e he).1 (hdone e he).2
      (hflags e he)
  unfold WritePOFile
  rw [hent]
  exact ReadPoFile_rawLines lines f hread

/-- The round trip of a catalog with a header and two translated entries. -/
theorem roundtrip_identity_witness :
    (ReadPoFile ["# catalog".toList, "msgid \"\"".toList, "msgstr \"\"".toList,
        "\"Language: fr\\n\"".toList, "".toList, "#: a.c:1".toList, "#, c-format".toList,
        "msgid \"Hello\"".toList, "msgstr \"Bonjour\"".toList, "".toList,
        "msgid \"x\"".toList, "msgstr \"\"".toList, "\"y\"".toList]).map
      (fun f => WritePOFile f "fr".toList exampleTranslator) =
    some ["# catalog".toList, "msgid \"\"".toList, "msgstr \"\"".toList,
        "\"Language: fr\\n\"".toList, "".toList, "#: a.c:1".toList, "#, c-format".toList,
        "msgid \"Hello\"".toList, "msgstr \"Bonjour\"".toList, "".toList,
        "msgid \"x\"".toList, "msgstr \"\"".toList, "\"y\"".toList] :=
  congrArg some
    (roundtrip_identity
      ["# catalog".toList, "msgid \"\"".toList, "msgstr \"\"".toList,
        "\"Language: fr\\n\"".toList, "".toList, "#: a.c:1".toList, "#, c-format".toList,
        "msgid \"Hello\"".toList, "msgstr \"Bonjour\"".toList, "".toList,
        "msgid \"x\"".toList, "msgstr \"\"".toList, "\"y\"".toList]
      { Header :=
          { Comments := [⟨.TranslatorComment, "catalog".toList⟩]
            Metadata := [("Language".toList, "fr\\n".toList)]
            RawLines := ["# catalog".toList, "msgid \"\"".toList, "msgstr \"\"".toList,
              "\"Language: fr\\n\"".toList, "".toList] }
        Entries :=
          [{ Comments := [⟨.ReferenceComment, "a.c:1".toList⟩, ⟨.FlagComment, "c-format".toList⟩]
             MsgID := "Hello".toList, MsgStr := "Bonjour".toList
             RawLines := ["#: a.c:1".toList, "#, c-format".toList, "msgid \"Hello\"".toList,
               "msgstr \"Bonjour\"".toList] },
           { MsgID := "x".toList, MsgStr := "y".toList
             RawLines := ["".toList, "msgid \"x\"".toList, "msgstr \"\"".toList,
               "\"y\"".toList] }] }
      "fr".toList exampleTranslator (by decide) (by decide) (by decide))

/-- C1 as stated fails: the flag line `#,c-format` of an entry that is translated and not
fuzzy is written as `#, c-format`. -/
theorem roundtrip_flag_line_counterexample :
    (ReadPoFile ["msgid \"\"".toList, "msgstr \"\"".toList, "".toList, "#,c-format".toList,
        "msgid \"a\"".toList, "msgstr \"b\"".toList]).map
      (fun f => (f.Entries.map (fun e => (e.MsgStr, e.IsFuzzy)),
        WritePOFile f "fr".toList exampleTranslator)) =
    some ([("b".toList, false)],
      ["msgid \"\"".toList, "msgstr \"\"".toList, "".toList, "#, c-format".toList,
        "msgid \"a\"".toList, "msgstr \"b\"".toList]) ∧
    ["msgid \"\"".toList, "msgstr \"\"".toList, "".toList, "#, c-format".toList,
        "msgid \"a\"".toList, "msgstr \"b\"".toList] ≠
      ["msgid \"\"".toList, "msgstr \"\"".toList, "".toList, "#,c-format".toList,
        "msgid \"a\"".toList, "msgstr \"b\"".toList] := by
  decide

/-! ### Blank lines: where the parser puts them and what the writer does with them -/

theorem blankInv_step (st : ParseState) (line : Str) (h : BlankInv st) :
    BlankInv (parseLine st line) := by
  obtain ⟨hcur, hclosed⟩ := h
  by_cases hb : trimSpace line = []
  · rw [parseLine_blank st line hb]
    by_cases hr : st.rawLines.length > 0
    · rw [if_pos hr]
      refine ⟨by simp, ?_⟩
      intro e he
      simp only [List.mem_append, List.mem_singleton] at he
      rcases he with he | he
      · exact hclosed e he
      · subst he
        exact ⟨List.length_pos.mp hr, hcur⟩
    · rw [if_neg hr]
      have hnil : st.rawLines = [] := by
        cases hrl : st.rawLines with
        | nil => rfl
        | cons a l => rw [hrl] at hr; simp at hr
      exact ⟨by simp [hnil], hclosed⟩
  · rw [parseLine_nonblank st line hb]
    refine ⟨?_, hclosed⟩
    intro l hl
    cases hrl : st.rawLines with
    | nil => simp [hrl] at hl
    | cons a r =>
      simp only [hrl, List.cons_append, List.tail_cons, List.mem_append,
        List.mem_singleton] at hl
      rcases hl with hl | hl
      · exact hcur l (by simp [hrl, hl])
      · rw [hl]; exact hb

theorem blankInv_foldl (lines : List Str) (st : ParseState) (h : BlankInv st) :
    BlankInv (lines.foldl parseLine st) := by
  induction lines generalizing st with
  | nil => exact h
  | cons l lines ih => exact ih _ (blankInv_step st l h)

/-- Every entry returned by `parseEntries` has raw lines, and none of them after the first
is blank. -/
theorem parseEntries_blank_first (lines : List Str) (e : Entry) (he : e ∈ parseEntries lines) :
    e.RawLines ≠ [] ∧ ∀ l ∈ e.RawLines.tail, trimSpace l ≠ [] := by
  have hinv := blankInv_foldl lines {} ⟨by simp, by intro e he; cases he⟩
  obtain ⟨hcur, hclosed⟩ := hinv
  unfold parseEntries parseFinish at he
  split_ifs at he with hr
  · simp only [List.mem_append, List.mem_singleton] at he
    rcases he with he | he
    · exact hclosed e he
    · subst he
      exact ⟨List.length_pos.mp hr, hcur⟩
  · exact hclosed e he

theorem blankCount_append (a b : List Str) :
    blankCount (a ++ b) = blankCount a + blankCount b := by
  simp [blankCount]

theorem blankCount_eq_zero (a : List Str) (h : ∀ l ∈ a, trimSpace l ≠ []) :
    blankCount a = 0 := by
  simp only [blankCount, List.length_eq_zero, List.filter_eq_nil_iff, decide_eq_true_eq]
  exact h

theorem trimSpace_ne_nil_of_mem (s : Str) (c : Char) (hc : c ∈ s) (hsp : isSpace c = false) :
    trimSpace s ≠ [] := by
  intro h
  have := (trimSpace_eq_nil_iff s).mp h c hc
  rw [hsp] at this
  exact absurd this (by simp)

/-- The lines written for a translated field are not blank. -/
theorem writeTranslatedString_not_blank (x t l out : Str)
    (hout : out ∈ writeTranslatedString ("msgstr".toList ++ x) t l) : trimSpace out ≠ [] := by
  unfold writeTranslatedString at hout
  split_ifs at hout
  · simp only [List.mem_singleton] at hout
    subst hout
    exact trimSpace_ne_nil_of_mem _ 'm' (by simp) (by decide)
  · simp only [List.mem_cons, List.mem_map] at hout
    rcases hout with hout | ⟨ch, _, hout⟩
    · subst hout
      exact trimSpace_ne_nil_of_mem _ 'm' (by simp) (by decide)
    · subst hout
      exact trimSpace_ne_nil_of_mem _ '"' (by simp) (by decide)

/-- What the writer writes for a line that is not blank is not blank. -/
theorem writeLine_not_blank (e : Entry) (lang : Str) (tc : Translator) (i : Nat) (skip : Bool)
    (line out : Str) (hline : trimSpace line ≠ [])
    (hout : out ∈ (writeLine e lang tc i skip line).1) : trimSpace out ≠ [] := by
  have hms : ∀ x t, out ∈ writeTranslatedString ("msgstr".toList ++ x) t line →
      trimSpace out ≠ [] := fun x t hx => writeTranslatedString_not_blank x t line out hx
  have hms0 : ∀ t, out ∈ writeTranslatedString "msgstr".toList t line → trimSpace out ≠ [] :=
    fun t ht => hms [] t (by simpa using ht)
  have hself : out ∈ [line] → trimSpace out ≠ [] := by
    intro hx
    simp only [List.mem_singleton] at hx
    rw [hx]; exact hline
  have hfl : out ∈ ["#, ".toList ++ join (newFlags line) ", ".toList] → trimSpace out ≠ [] := by
    intro hx
    simp only [List.mem_singleton] at hx
    rw [hx]
    exact trimSpace_ne_nil_of_mem _ '#' (by simp) (by decide)
  unfold writeLine at hout
  simp only [hline, decide_False, Bool.and_false, Bool.false_eq_true, if_false] at hout
  split_ifs at hout
  all_goals first
    | exact hself hout
    | exact hms0 _ hout
    | exact hfl hout
    | (simp only [List.not_mem_nil] at hout)
    | (split at hout
       · exact hms _ _ hout
       · simp only [List.not_mem_nil] at hout)

theorem writeLines_not_blank (e : Entry) (lang : Str) (tc : Translator) (lines : List Str)
    (hlines : ∀ l ∈ lines, trimSpace l ≠ []) (i : Nat) (skip : Bool) :
    blankCount (writeLines e lang tc i skip lines) = 0 := by
  apply blankCount_eq_zero
  intro out hout
  obtain ⟨line, hl, j, sk, hj⟩ := writeLines_mem e lang tc lines i skip out hout
  exact writeLine_not_blank e lang tc j sk line out (hlines line hl) hj

/-- For an entry whose raw lines have no blank line after the first, the writer writes as
many blank lines as the raw lines have: `skipNextEmptyLine` never suppresses one. -/
theorem writeEntry_blankCount (e : Entry) (lang : Str) (tc : Translator)
    (h : ∀ l ∈ e.RawLines.tail, trimSpace l ≠ []) :
    blankCount (writeEntry e lang tc) = blankCount e.RawLines := by
  unfold writeEntry
  cases hraw : e.RawLines with
  | nil => rfl
  | cons first rest =>
    rw [hraw] at h
    simp only [List.tail_cons] at h
    have hrest : blankCount rest = 0 := blankCount_eq_zero rest h
    rw [writeLines_cons, blankCount_append, writeLines_not_blank e lang tc rest h]
    have hsplit : blankCount (first :: rest) = blankCount [first] + blankCount rest :=
      blankCount_append [first] rest
    rw [hsplit, hrest]
    by_cases hb : trimSpace first = []
    · rw [writeLine_blank e lang tc 0 first hb]
    · have h1 : blankCount [first] = 0 := blankCount_eq_zero _ (by simpa using hb)
      rw [h1]
      simp only [Nat.add_zero]
      apply blankCount_eq_zero
      intro out hout
      exact writeLine_not_blank e lang tc 0 false first out hb hout

/-- On a file returned by `ReadPoFile` the writer writes as many blank lines as were read,
whatever the flag lines are: the blank line that follows a removed flag line is never
suppressed. -/
theorem WritePOFile_blankCount (lines : List Str) (f : File) (lang : Str) (tc : Translator)
    (hread : ReadPoFile lines = some f) :
    blankCount (WritePOFile f lang tc) = blankCount lines := by
  have hraw := ReadPoFile_rawLines lines f hread
  have hent : ∀ e ∈ f.Entries, blankCount (writeEntry e lang tc) = blankCount e.RawLines := by
    intro e he
    apply writeEntry_blankCount
    unfold ReadPoFile at hread
    split_ifs at hread
    simp only [Option.some.injEq] at hread
    rw [← hread] at he
    exact (parseEntries_blank_first _ e he).2
  have hflat : ∀ es : List Entry,
      (∀ e ∈ es, blankCount (writeEntry e lang tc) = blankCount e.RawLines) →
      blankCount (es.map (fun e => writeEntry e lang tc)).flatten =
        blankCount (es.map Entry.RawLines).flatten := by
    intro es
    induction es with
    | nil => intro _; rfl
    | cons e es ih =>
      intro hes
      simp only [List.map_cons, List.flatten_cons, blankCount_append]
      rw [hes e (by simp), ih (fun e2 he2 => hes e2 (by simp [he2]))]
  unfold WritePOFile
  rw [blankCount_append, hflat f.Entries hent, ← blankCount_append, hraw]

/-! ### The blank line after a removed flag line -/

/-- C4: on a parsed catalog the blank line that follows an entry whose only flag line is
`#, fuzzy` is written, so the output has as many blank lines as the input. -/
theorem blank_line_after_fuzzy_flag_kept :
    (ReadPoFile ["msgid \"\"".toList, "msgstr \"\"".toList, "".toList, "#, fuzzy".toList,
        "msgid \"Hello\"".toList, "msgstr \"Salut\"".toList, "".toList,
        "msgid \"c\"".toList, "msgstr \"d\"".toList]).map
      (fun f => (f.Entries.map Entry.RawLines, WritePOFile f "fr".toList exampleTranslator)) =
    some ([["#, fuzzy".toList, "msgid \"Hello\"".toList, "msgstr \"Salut\"".toList],
        ["".toList, "msgid \"c\"".toList, "msgstr \"d\"".toList]],
      ["msgid \"\"".toList, "msgstr \"\"".toList, "".toList,
        "msgid \"Hello\"".toList, "msgstr \"Bonjour\"".toList, "".toList,
        "msgid \"c\"".toList, "msgstr \"d\"".toList]) ∧
    blankCount ["msgid \"\"".toList, "msgstr \"\"".toList, "".toList,
        "msgid \"Hello\"".toList, "msgstr \"Bonjour\"".toList, "".toList,
        "msgid \"c\"".toList, "msgstr \"d\"".toList] =
      blankCount ["msgid \"\"".toList, "msgstr \"\"".toList, "".toList, "#, fuzzy".toList,
        "msgid \"Hello\"".toList, "msgstr \"Salut\"".toList, "".toList,
        "msgid \"c\"".toList, "msgstr \"d\"".toList] := by
  decide

/-! ### The header span and the raw-line partition -/

theorem headerPrefix_split (a c : List Str) (l : Str)
    (ha : ∀ x ∈ a, startsWith x "msgid \"\"".toList = false)
    (hl : startsWith l "msgid \"\"".toList = true) :
    headerPrefix (a ++ l :: c) = (a, l :: c) := by
  induction a with
  | nil =>
    rw [List.nil_append, headerPrefix, if_pos hl]
  | cons x a ih =>
    have hx := ha x (by simp)
    have ih2 := ih (fun y hy => ha y (by simp [hy]))
    rw [List.cons_append, headerPrefix, if_neg (by rw [hx]; simp), ih2]

/-- The second loop of `parseHeader` stops inside the lines when one of them is blank. -/
theorem headerEntry_lt (rest : List Str) (h : ∃ b ∈ rest, trimSpace b = []) :
    (headerEntry rest).2 < rest.length := by
  induction rest with
  | nil => obtain ⟨b, hb, _⟩ := h; cases hb
  | cons x rest ih =>
    by_cases hx : trimSpace x = []
    · simp [headerEntry, hx]
    · obtain ⟨b, hb, hbl⟩ := h
      simp only [List.mem_cons] at hb
      rcases hb with hb | hb
      · subst hb; exact absurd hbl hx
      · have := ih ⟨b, hb, hbl⟩
        simp only [headerEntry, hx, if_false, List.length_cons]
        omega

/-- The second loop of `parseHeader` runs to the end when no line is blank. -/
theorem headerEntry_eq_length (rest : List Str) (h : ∀ b ∈ rest, trimSpace b ≠ []) :
    (headerEntry rest).2 = rest.length := by
  induction rest with
  | nil => rfl
  | cons x rest ih =>
    have hx := h x (by simp)
    simp only [headerEntry, hx, if_false, List.length_cons]
    rw [ih (fun b hb => h b (by simp [hb]))]

/-- The index returned by `parseHeader` is one more than the number of lines exactly when
no line is blank from the first line that starts with `msgid ""` on (in particular when no
line starts with `msgid ""`); `ReadPoFile` then has no result. -/
theorem ReadPoFile_eq_none (lines : List Str)
    (h : ∀ b ∈ (headerPrefix lines).2, trimSpace b ≠ []) :
    (parseHeader lines).2 = lines.length + 1 ∧ ReadPoFile lines = none := by
  have h1 := headerPrefix_append lines
  have hlen : (headerPrefix lines).1.length + (headerPrefix lines).2.length = lines.length := by
    rw [← List.length_append, h1]
  have h2 := headerEntry_eq_length _ h
  have hidx : (parseHeader lines).2 = lines.length + 1 := by
    simp only [parseHeader]
    omega
  refine ⟨hidx, ?_⟩
  unfold ReadPoFile
  rw [if_neg (by omega)]

/-- C12. Raw lines partition the input: when a blank line occurs at or after the first
line that starts with `msgid ""`, `ReadPoFile` returns a file, and the raw lines of its
header followed by the raw lines of its entries, in entry order, are exactly the lines
read. -/
theorem rawLines_partition (a c : List Str) (l : Str)
    (ha : ∀ x ∈ a, startsWith x "msgid \"\"".toList = false)
    (hl : startsWith l "msgid \"\"".toList = true)
    (hblank : ∃ b ∈ l :: c, trimSpace b = []) :
    ∃ f, ReadPoFile (a ++ l :: c) = some f ∧
      f.Header.RawLines ++ (f.Entries.map Entry.RawLines).flatten = a ++ l :: c := by
  have hp := headerPrefix_split a c l ha hl
  have hlt := headerEntry_lt (l :: c) hblank
  have hidx : (parseHeader (a ++ l :: c)).2 ≤ (a ++ l :: c).length := by
    simp only [parseHeader, hp, List.length_append]
    omega
  have hsome : ReadPoFile (a ++ l :: c) =
      some { Header := (parseHeader (a ++ l :: c)).1
             Entries := parseEntries ((a ++ l :: c).drop (parseHeader (a ++ l :: c)).2) } := by
    unfold ReadPoFile
    rw [if_pos hidx]
  exact ⟨_, hsome, ReadPoFile_rawLines _ _ hsome⟩

/-- The partition of a catalog with a comment before the header and two entries. -/
theorem rawLines_partition_witness :
    ∃ f, ReadPoFile (["# catalog".toList] ++ "msgid \"\"".toList ::
        ["msgstr \"\"".toList, "".toList, "msgid \"a\"".toList, "msgstr \"b\"".toList,
          "".toList, "msgid \"c\"".toList]) = some f ∧
      f.Header.RawLines ++ (f.Entries.map Entry.RawLines).flatten =
        ["# catalog".toList] ++ "msgid \"\"".toList ::
          ["msgstr \"\"".toList, "".toList, "msgid \"a\"".toList, "msgstr \"b\"".toList,
            "".toList, "msgid \"c\"".toList] :=
  rawLines_partition ["# catalog".toList]
    ["msgstr \"\"".toList, "".toList, "msgid \"a\"".toList, "msgstr \"b\"".toList,
      "".toList, "msgid \"c\"".toList] "msgid \"\"".toList
    (by decide) (by decide) ⟨"".toList, by decide, by decide⟩

/-- C13: `parseHeader` returns an index one past the number of lines, and `ReadPoFile` has
no result (the slice `lines[headerEndIndex:]` is out of range), for the empty line
sequence, for a header that no blank line follows, and for lines without a `msgid ""`
line. -/
theorem parseHeader_index_out_of_range :
    ((parseHeader []).2 = 1 ∧ ReadPoFile [] = none) ∧
    ((parseHeader ["msgid \"\"".toList, "msgstr \"\"".toList]).2 = 3 ∧
      ReadPoFile ["msgid \"\"".toList, "msgstr \"\"".toList] = none) ∧
    ((parseHeader ["# comment".toList, "".toList, "msgid \"a\"".toList,
        "msgstr \"b\"".toList]).2 = 5 ∧
      ReadPoFile ["# comment".toList, "".toList, "msgid \"a\"".toList,
        "msgstr \"b\"".toList] = none) := by
  decide

/-- C18. Entry segmentation: every entry returned by `parseEntries` has raw lines, and a
blank line is never at index 1 or later of the raw lines of an entry. -/
theorem entry_rawLines_blank_only_first (lines : List Str) (e : Entry)
    (he : e ∈ parseEntries lines) :
    e.RawLines ≠ [] ∧
    ∀ (k : Nat) (l : Str), 1 ≤ k → e.RawLines.get? k = some l → trimSpace l ≠ [] := by
  obtain ⟨hne, htail⟩ := parseEntries_blank_first lines e he
  refine ⟨hne, ?_⟩
  intro k l hk hget
  apply htail l
  cases hraw : e.RawLines with
  | nil => rw [hraw] at hget; simp at hget
  | cons x rest =>
    rw [hraw] at hget
    obtain ⟨j, rfl⟩ : ∃ j, k = j + 1 := ⟨k - 1, by omega⟩
    simp only [List.get?_cons_succ] at hget
    simp only [List.tail_cons]
    exact List.get?_mem hget

/-- The segmentation of lines with two consecutive blank lines. -/
theorem entry_rawLines_blank_only_first_witness :
    (parseEntries ["msgid \"a\"".toList, "".toList, "".toList, "msgid \"b\"".toList]).map
        Entry.RawLines =
      [["msgid \"a\"".toList], ["".toList], ["".toList, "msgid \"b\"".toList]] ∧
    ["".toList, "msgid \"b\"".toList] ≠ [] ∧
    ∀ (k : Nat) (l : Str), 1 ≤ k →
      (Entry.RawLines { MsgID := "b".toList
                        RawLines := ["".toList, "msgid \"b\"".toList] }).get? k = some l →
      trimSpace l ≠ [] :=
  ⟨by decide, by decide,
    (entry_rawLines_blank_only_first
      ["msgid \"a\"".toList, "".toList, "".toList, "msgid \"b\"".toList]
      { MsgID := "b".toList, RawLines := ["".toList, "msgid \"b\"".toList] }
      (by decide)).2⟩

/-! ### Comments and the fuzzy flag -/

theorem byteLen_lt_two (l : Str) (h : byteLen l < 2) : l = [] ∨ ∃ c, l = [c] := by
  match l with
  | [] => exact Or.inl rfl
  | [c] => exact Or.inr ⟨c, rfl⟩
  | c :: d :: r =>
    have h1 := utf8Size_pos c
    have h2 := utf8Size_pos d
    simp only [byteLen] at h
    omega

/-- A comment is classified as a flag comment exactly when the line starts with `#,`. -/
theorem parseComment_kind_flag (l : Str) :
    (parseComment l).Kind = .FlagComment ↔ startsWith l "#,".toList = true := by
  by_cases hlen : byteLen l < 2
  · have hk : (parseComment l).Kind = .TranslatorComment := by simp [parseComment, hlen]
    have hs : startsWith l "#,".toList = false := by
      rcases byteLen_lt_two l hlen with h | ⟨c, h⟩ <;> subst h <;>
        simp [startsWith_cons_cons, startsWith_nil_cons]
    rw [hk, hs]
    simp
  · by_cases h3 : startsWith l "#,".toList = true
    · obtain ⟨r, hr⟩ := startsWith_split l _ h3
      subst hr
      simp only [String.toList, List.cons_append, List.nil_append] at hlen h3 ⊢
      simp [parseComment, hlen, startsWith_cons_cons, startsWith_nil]
    · have h3f : startsWith l "#,".toList = false := by simpa using h3
      simp only [h3f, Bool.false_eq_true, iff_false]
      unfold parseComment
      rw [if_neg hlen]
      split_ifs <;> simp

theorem trimSpace_ne_nil_of_hash (l : Str) (h : startsWith l "#".toList = true) :
    trimSpace l ≠ [] :=
  trimSpace_ne_nil_of_startsWith l '#' [] (by decide) h

theorem updateEntryField_comments (e : Entry) (f : FieldKind) (v : Str) :
    (updateEntryField e f v).Comments = e.Comments ∧
      (updateEntryField e f v).IsFuzzy = e.IsFuzzy := by
  cases f <;> exact ⟨rfl, rfl⟩

theorem appendToEntryField_comments (e : Entry) (f : FieldKind) (v : Str) :
    (appendToEntryField e f v).Comments = e.Comments ∧
      (appendToEntryField e f v).IsFuzzy = e.IsFuzzy := by
  cases f <;> try exact ⟨rfl, rfl⟩
  unfold appendToEntryField
  simp only
  split <;> exact ⟨rfl, rfl⟩

/-- The effect of one raw line on the comments and on the fuzzy flag of the entry. -/
theorem entryStep_comments (acc : Entry × FieldKind) (l : Str) :
    (entryStep acc l).1.Comments =
        acc.1.Comments ++ (if startsWith l "#".toList = true then [parseComment l] else []) ∧
    (entryStep acc l).1.IsFuzzy =
        (acc.1.IsFuzzy ||
          (startsWith l "#".toList && isFuzzyComment (parseComment l))) := by
  by_cases hc : startsWith l "#".toList = true
  · have hb := trimSpace_ne_nil_of_hash l hc
    unfold entryStep
    rw [if_neg hb, if_pos hc]
    simp only [hc, if_true, Bool.true_and, isFuzzyComment]
    split_ifs with hf
    · refine ⟨rfl, ?_⟩
      rw [hf, Bool.or_true]
    · have hf2 : (decide ((parseComment l).Kind = CommentType.FlagComment) &&
          contains (parseComment l).Content "fuzzy".toList) = false :=
        Bool.eq_false_iff.mpr hf
      refine ⟨rfl, ?_⟩
      rw [hf2, Bool.or_false]
  · have hcf : startsWith l "#".toList = false := by simpa using hc
    simp only [hcf, Bool.false_eq_true, if_false, List.append_nil, Bool.false_and,
      Bool.or_false]
    unfold entryStep
    rw [if_neg hc]
    split_ifs
    · exact ⟨rfl, rfl⟩
    · exact updateEntryField_comments _ _ _
    · exact appendToEntryField_comments _ _ _
    · exact ⟨rfl, rfl⟩

theorem foldl_entryStep_comments (raw : List Str) (acc : Entry × FieldKind) :
    (raw.foldl entryStep acc).1.Comments =
        acc.1.Comments ++ (raw.filter (fun l => startsWith l "#".toList)).map parseComment ∧
    (raw.foldl entryStep acc).1.IsFuzzy =
        (acc.1.IsFuzzy ||
          raw.any (fun l => startsWith l "#".toList && isFuzzyComment (parseComment l))) := by
  induction raw generalizing acc with
  | nil => simp
  | cons l raw ih =>
    obtain ⟨h1, h2⟩ := entryStep_comments acc l
    obtain ⟨i1, i2⟩ := ih (entryStep acc l)
    rw [List.foldl_cons, i1, i2, h1, h2]
    constructor
    · by_cases hc : startsWith l "#".toList = true
      · rw [if_pos hc, List.filter_cons_of_pos (by simpa using hc)]
        simp
      · rw [if_neg hc, List.filter_cons_of_neg (by simpa using hc)]
        simp
    · simp [Bool.or_assoc]

theorem isFuzzyComment_parseComment (l : Str) :
    (startsWith l "#".toList && isFuzzyComment (parseComment l)) = true ↔
      (startsWith l "#,".toList = true ∧
        contains (parseComment l).Content "fuzzy".toList = true) := by
  simp only [isFuzzyComment, Bool.and_eq_true, decide_eq_true_eq, parseComment_kind_flag]
  constructor
  · rintro ⟨_, h2, h3⟩
    exact ⟨h2, h3⟩
  · rintro ⟨h2, h3⟩
    refine ⟨?_, h2, h3⟩
    obtain ⟨r, hr⟩ := startsWith_split l _ h2
    rw [hr]
    rfl

/-- C16. Fuzzy detection: the comments of a parsed entry are the classified comment lines
of its raw lines, in order, and the entry has `IsFuzzy = true` if and only if one of its
comments is a flag comment whose payload contains `fuzzy`, that is, if and only if one of
its own raw lines starts with `#,` and has a payload containing `fuzzy`; the flag does not
depend on any other entry. -/
theorem fuzzy_detection (lines : List Str) (e : Entry) (he : e ∈ parseEntries lines) :
    e.Comments = (e.RawLines.filter (fun l => startsWith l "#".toList)).map parseComment ∧
    (e.IsFuzzy = true ↔
      ∃ c ∈ e.Comments, c.Kind = .FlagComment ∧ contains c.Content "fuzzy".toList = true) ∧
    (e.IsFuzzy = true ↔
      ∃ l ∈ e.RawLines, startsWith l "#,".toList = true ∧
        contains (parseComment l).Content "fuzzy".toList = true) := by
  obtain ⟨f0, hf0⟩ := parseEntries_entryOf lines e he
  obtain ⟨h1, h2⟩ := foldl_entryStep_comments e.RawLines ({}, f0)
  have hC : e.Comments =
      (e.RawLines.filter (fun l => startsWith l "#".toList)).map parseComment := by
    have : e.Comments = (e.RawLines.foldl entryStep ({}, f0)).1.Comments := by
      conv_lhs => rw [hf0]
      rfl
    rw [this, h1]
    rfl
  have hF : e.IsFuzzy =
      e.RawLines.any (fun l => startsWith l "#".toList && isFuzzyComment (parseComment l)) := by
    have : e.IsFuzzy = (e.RawLines.foldl entryStep ({}, f0)).1.IsFuzzy := by
      conv_lhs => rw [hf0]
      rfl
    rw [this, h2]
    rfl
  have hL : e.IsFuzzy = true ↔
      ∃ l ∈ e.RawLines, startsWith l "#,".toList = true ∧
        contains (parseComment l).Content "fuzzy".toList = true := by
    rw [hF, List.any_eq_true]
    constructor
    · rintro ⟨l, hl, h⟩
      exact ⟨l, hl, (isFuzzyComment_parseComment l).mp h⟩
    · rintro ⟨l, hl, h⟩
      exact ⟨l, hl, (isFuzzyComment_parseComment l).mpr h⟩
  refine ⟨hC, ?_, hL⟩
  rw [hL, hC]
  constructor
  · rintro ⟨l, hl, h2, h3⟩
    refine ⟨parseComment l, ?_, (parseComment_kind_flag l).mpr h2, h3⟩
    rw [List.mem_map]
    refine ⟨l, ?_, rfl⟩
    rw [List.mem_filter]
    refine ⟨hl, ?_⟩
    obtain ⟨r, hr⟩ := startsWith_split l _ h2
    rw [hr]
    rfl
  · rintro ⟨c, hc, hk, hcont⟩
    rw [List.mem_map] at hc
    obtain ⟨l, hl, rfl⟩ := hc
    rw [List.mem_filter] at hl
    exact ⟨l, hl.1, (parseComment_kind_flag l).mp hk, hcont⟩

/-- A fuzzy entry followed by an entry that is not fuzzy. -/
theorem fuzzy_detection_witness :
    (parseEntries ["#, fuzzy, c-format".toList, "msgid \"a\"".toList, "msgstr \"b\"".toList,
        "".toList, "#, c-format".toList, "msgid \"c\"".toList, "msgstr \"d\"".toList]).map
      Entry.IsFuzzy = [true, false] ∧
    ((Entry.IsFuzzy
        { Comments := [⟨.FlagComment, "fuzzy, c-format".toList⟩]
          MsgID := "a".toList, MsgStr := "b".toList, IsFuzzy := true
          RawLines := ["#, fuzzy, c-format".toList, "msgid \"a\"".toList,
            "msgstr \"b\"".toList] }) = true ↔
      ∃ l ∈ ["#, fuzzy, c-format".toList, "msgid \"a\"".toList, "msgstr \"b\"".toList],
        startsWith l "#,".toList = true ∧
          contains (parseComment l).Content "fuzzy".toList = true) :=
  ⟨by decide,
    (fuzzy_detection
      ["#, fuzzy, c-format".toList, "msgid \"a\"".toList, "msgstr \"b\"".toList,
        "".toList, "#, c-format".toList, "msgid \"c\"".toList, "msgstr \"d\"".toList]
      { Comments := [⟨.FlagComment, "fuzzy, c-format".toList⟩]
        MsgID := "a".toList, MsgStr := "b".toList, IsFuzzy := true
        RawLines := ["#, fuzzy, c-format".toList, "msgid \"a\"".toList,
          "msgstr \"b\"".toList] }
      (by decide)).2.2⟩

/-! ### The fallback on a translation failure, and reading a written field back -/

/-- An entry `msgid "S"`, `msgstr ""` with a non-empty `S` is written as its msgid line
followed by the msgstr field of what `translateText` returns, when that is at most 70
bytes long. -/
theorem writeEntry_msgid_msgstr (lines : List Str) (e : Entry) (lead : List Str)
    (S lang : Str) (tc : Translator)
    (he : e ∈ parseEntries lines)
    (hlead : ∀ b ∈ lead, trimSpace b = [])
    (hraw : e.RawLines = lead ++ [msgidLine S, msgstrLine []])
    (hS : S ≠ [])
    (hT : byteLen (translateText S lang tc) ≤ 70) :
    writeEntry e lang tc =
      lead ++ [msgidLine S, msgstrLine (escapeString (translateText S lang tc))] := by
  obtain ⟨f0, hf0⟩ := parseEntries_entryOf lines e he
  rw [hraw] at hf0
  have hID : e.MsgID = S := by
    rw [hf0]
    simp [entryOf, List.foldl_append, foldl_entryStep_blank lead hlead, entryStep_msgidLine,
      entryStep_msgstrLine]
  have hStr : e.MsgStr = [] := by
    rw [hf0]
    simp [entryOf, List.foldl_append, foldl_entryStep_blank lead hlead, entryStep_msgidLine,
      entryStep_msgstrLine]
  unfold writeEntry
  rw [hraw, writeLines_blank_lead e lang tc lead hlead, writeLines_cons, writeLine_msgidLine,
    writeLines_cons, writeLine_msgstrLine e lang tc _ _ _ (Or.inl hStr) (by rw [hID]; exact hS)]
  rw [hID]
  have hind : indentOf (msgstrLine []) = [] := by
    simpa [msgstrLine] using indentOf_cons 'm' _ (by decide) (by decide)
  simp only [writeTranslatedString, hT, hind, if_true, writeLines]
  simp [msgstrLine]

theorem translateText_failure (text lang : Str) (tc : Translator)
    (h : tc text "en".toList lang = none) : translateText text lang tc = text := by
  simp only [translateText, h]

/-- A text without backslash, double quote, newline or tab is its own escape. -/
theorem escapeString_eq_self (s : Str)
    (h : ∀ c ∈ s, c ≠ '\\' ∧ c ≠ '"' ∧ c ≠ '\n' ∧ c ≠ '\t') : escapeString s = s := by
  induction s with
  | nil => rfl
  | cons c s ih =>
    obtain ⟨h1, h2, h3, h4⟩ := h c (by simp)
    rw [escapeString_cons, ih (fun d hd => h d (by simp [hd]))]
    simp [escapeChar, h1, h2, h3, h4]

/-- When the translation of the source text `P` of an entry `msgid "P"`, `msgstr ""`
fails, the writer writes `msgstr "<escapeString P>"`, which is `msgstr "P"` when `P` has
no backslash, double quote, newline or tab; the other entries are written around it. -/
theorem fallback_writes_escaped_source (lines : List Str) (e : Entry) (lead : List Str)
    (P lang : Str) (tc : Translator)
    (he : e ∈ parseEntries lines)
    (hlead : ∀ b ∈ lead, trimSpace b = [])
    (hraw : e.RawLines = lead ++ [msgidLine P, msgstrLine []])
    (hP : P ≠ []) (hlen : byteLen P ≤ 70)
    (hfail : tc P "en".toList lang = none) :
    writeEntry e lang tc = lead ++ [msgidLine P, msgstrLine (escapeString P)] ∧
    ((∀ c ∈ P, c ≠ '\\' ∧ c ≠ '"' ∧ c ≠ '\n' ∧ c ≠ '\t') →
      writeEntry e lang tc = lead ++ [msgidLine P, msgstrLine P]) ∧
    (∀ (hdr : Header) (before after : List Entry),
      WritePOFile { Header := hdr, Entries := before ++ e :: after } lang tc =
        hdr.RawLines ++ (before.map (fun x => writeEntry x lang tc)).flatten ++
          (lead ++ [msgidLine P, msgstrLine (escapeString P)]) ++
          (after.map (fun x => writeEntry x lang tc)).flatten) := by
  have htr := translateText_failure P lang tc hfail
  have hw := writeEntry_msgid_msgstr lines e lead P lang tc he hlead hraw hP
    (by rw [htr]; exact hlen)
  rw [htr] at hw
  refine ⟨hw, ?_, ?_⟩
  · intro hplain
    rw [hw, escapeString_eq_self P hplain]
  · intro hdr before after
    simp [WritePOFile, hw]

/-- C11: for the entry `msgid "Line\n"`, `msgstr ""` (the payload ends with a backslash
and the letter n) and a translation capability that fails, the writer writes
`msgstr "Line\\n"`, with the backslash doubled, not the payload of the msgid line. -/
theorem fallback_escapes_source_again :
    (parseEntries ["msgid \"Line\\n\"".toList, "msgstr \"\"".toList]).map
        (fun e => (e.MsgID, writeEntry e "fr".toList (fun _ _ _ => none))) =
      [("Line\\n".toList, ["msgid \"Line\\n\"".toList, "msgstr \"Line\\\\n\"".toList])] ∧
    "msgstr \"Line\\\\n\"".toList ≠ msgstrLine "Line\\n".toList ∧
    byteLen "Line\\n".toList ≤ 70 := by
  decide

theorem indentOf_no_quote (l : Str) : '"' ∉ indentOf l := by
  intro h
  rcases indentOf_all l '"' h with h1 | h1 <;> exact absurd h1 (by decide)

/-- A field written on a single line reads back as the escaped text. -/
theorem readBack_single_line (pfx text originalLine : Str) (hpfx : '"' ∉ pfx)
    (hlen : byteLen text ≤ 70) :
    readBack (writeTranslatedString pfx text originalLine) = escapeString text := by
  have hq : '"' ∉ indentOf originalLine ++ pfx ++ [' '] := by
    simp only [List.mem_append, List.mem_singleton, not_or]
    exact ⟨⟨indentOf_no_quote originalLine, hpfx⟩, by decide⟩
  have hx := extractQuotedText_quoted (indentOf originalLine ++ pfx ++ [' '])
    (escapeString text) hq
  simp only [writeTranslatedString, hlen, if_true, readBack, List.map_cons, List.map_nil,
    List.flatten_cons, List.flatten_nil, List.append_nil]
  simpa using hx

/-- C20: a text of two words of 40 bytes is written as `msgstr ""` followed by one line
per word, and reading these lines back gives the two words without the space between
them, which is not the escaped text. -/
theorem readBack_multi_line_loses_spaces :
    writeTranslatedString "msgstr".toList
        (List.replicate 40 'a' ++ ' ' :: List.replicate 40 'b') "msgstr \"\"".toList =
      ["msgstr \"\"".toList, '"' :: (List.replicate 40 'a' ++ ['"']),
        '"' :: (List.replicate 40 'b' ++ ['"'])] ∧
    readBack (writeTranslatedString "msgstr".toList
        (List.replicate 40 'a' ++ ' ' :: List.replicate 40 'b') "msgstr \"\"".toList) =
      List.replicate 40 'a' ++ List.replicate 40 'b' ∧
    escapeString (List.replicate 40 'a' ++ ' ' :: List.replicate 40 'b') =
      List.replicate 40 'a' ++ ' ' :: List.replicate 40 'b' ∧
    readBack (writeTranslatedString "msgstr".toList
        (List.replicate 40 'a' ++ ' ' :: List.replicate 40 'b') "msgstr \"\"".toList) ≠
      escapeString (List.replicate 40 'a' ++ ' ' :: List.replicate 40 'b') := by
  decide

/-! ### The translation client on long texts -/

theorem byteLen_replicate (n : Nat) (c : Char) :
    byteLen (List.replicate n c) = n * c.utf8Size := by
  induction n with
  | zero => simp [byteLen]
  | succ n ih => simp only [List.replicate_succ, byteLen, ih]; ring

/-- A text without the first code point of the separator is not split. -/
theorem splitGo2_no_sep (a b : Char) (s : Str) (h : a ∉ s) (cur : Str) :
    splitGo2 a b cur s = [cur ++ s] := by
  induction s generalizing cur with
  | nil => simp [splitGo2]
  | cons c rest ih =>
    have hc : c ≠ a := fun hh => h (by simp [hh])
    have hrest : a ∉ rest := fun hh => h (by simp [hh])
    cases rest with
    | nil => simp [splitGo2]
    | cons d s =>
      have := ih hrest (cur ++ [c])
      rw [splitGo2, if_neg (fun hh => hc hh.1), this]
      simp

theorem split2_no_sep (a b : Char) (s : Str) (h : a ∉ s) : split2 s a b = [s] := by
  simp [split2, splitGo2_no_sep a b s h]

theorem splitIntoSentences_no_period (s : Str) (h : '.' ∉ s) : splitIntoSentences s = [s] := by
  simp [splitIntoSentences, split2_no_sep '.' ' ' s h, addPeriods]

/-- A text of at most 9000 bytes is sent to the backend, whose answer is returned. -/
theorem TranslateText_short (backend : Translator) (fuel : Nat) (text src tgt : Str)
    (h : byteLen text ≤ 9000) :
    TranslateText backend (fuel + 1) text src tgt = some (backend text src tgt) := by
  simp only [TranslateText]
  rw [if_neg (by omega)]

/-- Two paragraphs of at most 9000 bytes each, separated by an empty line, are translated
one after the other and joined again. -/
theorem TranslateText_two_paragraphs (backend : Translator) (fuel : Nat) (p q src tgt : Str)
    (tp tq : Str)
    (hp : p ≠ []) (hq : q ≠ []) (hpn : '\n' ∉ p) (hqn : '\n' ∉ q)
    (hlp : byteLen p ≤ 9000) (hlq : byteLen q ≤ 9000)
    (hlong : byteLen (p ++ '\n' :: '\n' :: q) > 9000)
    (hbp : backend p src tgt = some tp) (hbq : backend q src tgt = some tq) :
    TranslateText backend (fuel + 2) (p ++ '\n' :: '\n' :: q) src tgt =
      some (some (tp ++ '\n' :: '\n' :: tq)) := by
  have hsplit : split2 (p ++ '\n' :: '\n' :: q) '\n' '\n' = [p, q] := by
    have key : ∀ (p cur : Str), '\n' ∉ p →
        splitGo2 '\n' '\n' cur (p ++ '\n' :: '\n' :: q) = [cur ++ p, q] := by
      intro p
      induction p with
      | nil =>
        intro cur _
        rw [List.nil_append, splitGo2, if_pos ⟨rfl, rfl⟩, splitGo2_no_sep '\n' '\n' q hqn]
        simp
      | cons c p ih =>
        intro cur hc
        have hc1 : c ≠ '\n' := fun hh => hc (by simp [hh])
        have hp2 : '\n' ∉ p := fun hh => hc (by simp [hh])
        have := ih (cur ++ [c]) hp2
        cases p with
        | nil =>
          simp only [List.nil_append, List.cons_append] at this ⊢
          rw [splitGo2, if_neg (fun hh => hc1 hh.1), this]
          simp
        | cons d p =>
          simp only [List.cons_append] at this ⊢
          rw [splitGo2, if_neg (fun hh => hc1 hh.1), this]
          simp
    simpa [split2] using key p [] hpn
  rw [show fuel + 2 = (fuel + 1) + 1 from rfl]
  simp only [TranslateText]
  rw [if_pos hlong, hsplit]
  have h1 : TranslateText backend (fuel + 1) p src tgt = some (some tp) := by
    rw [TranslateText_short backend fuel p src tgt hlp, hbp]
  have h2 : TranslateText backend (fuel + 1) q src tgt = some (some tq) := by
    rw [TranslateText_short backend fuel q src tgt hlq, hbq]
  have hnp : ¬ byteLen p > 9000 := by omega
  have hnq : ¬ byteLen q > 9000 := by omega
  simp only [translateParagraphs, hp, hq, hnp, hnq, if_false, h1, h2]
  simp [join, List.intercalate, hbp, hbq]

/-- A text of more than 9000 bytes without a newline and without a period is handed back
to `TranslateText` unchanged by `translateLongText`: the call never returns, whatever the
depth allowed. -/
theorem TranslateText_unsplittable (backend : Translator) (text src tgt : Str)
    (hlong : byteLen text > 9000) (hn : '\n' ∉ text) (hp : '.' ∉ text) (fuel : Nat) :
    TranslateText backend fuel text src tgt = none := by
  induction fuel with
  | zero => rfl
  | succ fuel ih =>
    have hne : text ≠ [] := by
      intro h; rw [h] at hlong; simp [byteLen] at hlong
    simp only [TranslateText]
    rw [if_pos hlong, split2_no_sep '\n' '\n' text hn]
    simp only [translateParagraphs, hne, if_false, hlong, if_true,
      splitIntoSentences_no_period text hp, translateSentences, ih]

/-- C17: for a text of 9001 letters `a`, which exceeds the 9000-byte limit and has no
paragraph or sentence separator, `Client.TranslateText` calls itself again with the same
text; it returns neither a translated text nor a failure, whatever the depth allowed and
without any backend call. -/
theorem TranslateText_does_not_return (backend : Translator) (fuel : Nat) (src tgt : Str) :
    TranslateText backend fuel (List.replicate 9001 'a') src tgt = none := by
  apply TranslateText_unsplittable
  · rw [byteLen_replicate]
    have : 'a'.utf8Size = 1 := by decide
    rw [this]
    omega
  · intro h
    exact absurd (List.eq_of_mem_replicate h) (by decide)
  · intro h
    exact absurd (List.eq_of_mem_replicate h) (by decide)

/-! ### Lines written unchanged -/

theorem startsWith_append_self (p r : Str) : startsWith (p ++ r) p = true := by
  induction p with
  | nil => exact startsWith_nil _
  | cons c p ih => rw [List.cons_append, startsWith_cons_cons, ih]; simp

theorem startsWith_mono (l p q : Str) (h : startsWith l (p ++ q) = true) :
    startsWith l p = true := by
  obtain ⟨r, hr⟩ := startsWith_split l _ h
  rw [hr, List.append_assoc]
  exact startsWith_append_self p (q ++ r)

theorem startsWith_mono_false (l p q : Str) (h : startsWith l p = false) :
    startsWith l (p ++ q) = false := by
  cases hq : startsWith l (p ++ q) with
  | false => rfl
  | true => rw [startsWith_mono l p q hq] at h; exact absurd h (by simp)

theorem startsWith_first_ne (l : Str) (c d : Char) (p q : Str) (h : startsWith l (c :: p) = true)
    (hcd : d ≠ c) : startsWith l (d :: q) = false := by
  obtain ⟨r, hr⟩ := startsWith_split l _ h
  rw [hr, List.cons_append, startsWith_cons_cons]
  have : (d == c) = false := by simpa using hcd
  simp [this]

theorem startsWith_trimSpace_first_ne (l : Str) (c d : Char) (p q : Str)
    (h : startsWith l (c :: p) = true) (hc : isSpace c = false) (hcd : d ≠ c) :
    startsWith (trimSpace l) (d :: q) = false := by
  obtain ⟨r, hr⟩ := startsWith_split l _ h
  rw [hr, List.cons_append, startsWith_trimSpace_cons c d _ _ hc]
  have : (d == c) = false := by simpa using hcd
  simp [this]

/-- A line that starts with `msgstr` is a singular or a plural msgstr field start. -/
theorem getMsgFieldType_msgstr (l : Str) (h : startsWith l "msgstr".toList = true) :
    getMsgFieldType l = .msgstr ∨ getMsgFieldType l = .msgstr_plural := by
  obtain ⟨r, hr⟩ := startsWith_split l _ h
  subst hr
  by_cases hb : startsWith ("msgstr".toList ++ r) "msgstr[".toList = true
  · right
    simp only [String.toList, List.cons_append, List.nil_append] at hb ⊢
    simp [getMsgFieldType, startsWith_cons_cons, startsWith_nil, hb]
  · left
    have hb2 : startsWith ("msgstr".toList ++ r) "msgstr[".toList = false := by simpa using hb
    simp only [String.toList, List.cons_append, List.nil_append] at hb2 ⊢
    simp [getMsgFieldType, startsWith_cons_cons, startsWith_nil] at hb2 ⊢
    simp [hb2]

theorem not_msgstr_of_sourceKind (l : Str) (h : isSourceKind (getMsgFieldType l) = true) :
    startsWith l "msgstr".toList = false := by
  cases hs : startsWith l "msgstr".toList with
  | false => rfl
  | true =>
    rcases getMsgFieldType_msgstr l hs with hk | hk <;> rw [hk] at h <;>
      exact absurd h (by decide)

/-- The backward scan of the writer does not find a msgstr field when the nearest field
start is a source field. -/
theorem foundMsgStr_sourceKind (earlier : List Str)
    (h : isSourceKind (lastField earlier) = true) : foundMsgStr earlier = false := by
  induction earlier with
  | nil => rfl
  | cons l earlier ih =>
    by_cases hm : startsWith l "msg".toList = true
    · have hk : isSourceKind (getMsgFieldType l) = true := by
        rw [lastField, if_pos hm] at h; exact h
      have h1 := not_msgstr_of_sourceKind l hk
      have h2 : startsWith (trimSpace l) "\"".toList = false :=
        startsWith_trimSpace_first_ne l 'm' '"' _ _ hm (by decide) (by decide)
      simp only [foundMsgStr, h1, h2, Bool.false_eq_true, if_false, Bool.not_false, if_true]
    · have hlf : isSourceKind (lastField earlier) = true := by
        rw [lastField, if_neg hm] at h; exact h
      have h1 : startsWith l "msgstr".toList = false := by
        have hm2 : startsWith l "msg".toList = false := by simpa using hm
        exact startsWith_mono_false l "msg".toList "str".toList hm2
      simp only [foundMsgStr, h1, Bool.false_eq_true, if_false]
      split_ifs
      · rfl
      · exact ih hlf

/-- The last branch of the writer: a line that is not blank, not a `#,` line and not a
msgstr field start is written unchanged unless it is taken for a msgstr continuation. -/
theorem writeLine_plain (e : Entry) (lang : Str) (tc : Translator) (i : Nat) (skip : Bool)
    (line : Str) (hb : trimSpace line ≠ [])
    (h1 : startsWith line "#,".toList = false)
    (h2 : startsWith line "msgstr".toList = false)
    (h3 : startsWith (trimSpace line) "\"".toList = false ∨
      foundMsgStr (e.RawLines.take i).reverse = false) :
    writeLine e lang tc i skip line = ([line], skip) := by
  have h4 : startsWith line "msgstr \"".toList = false :=
    startsWith_mono_false line "msgstr".toList " \"".toList h2
  have h5 : startsWith line "msgstr[".toList = false :=
    startsWith_mono_false line "msgstr".toList "[".toList h2
  unfold writeLine
  simp only [hb, h1, h4, h5, decide_False, Bool.and_false, Bool.false_and, Bool.false_eq_true,
    if_false]
  rcases h3 with h3 | h3 <;>
    simp only [h3, Bool.and_false, Bool.false_and, Bool.false_eq_true, if_false]

/-- A raw line to keep is written unchanged. -/
theorem writeLine_preserved (e : Entry) (lang : Str) (tc : Translator) (i : Nat) (skip : Bool)
    (line : Str) (h : isPreserved (e.RawLines.take i).reverse line = true) :
    writeLine e lang tc i skip line = ([line], skip) := by
  simp only [isPreserved, Bool.or_eq_true, Bool.and_eq_true, Bool.not_eq_true'] at h
  rcases h with (⟨hc, hnf⟩ | ⟨hm, hk⟩) | ⟨hq, hk⟩
  · exact writeLine_plain e lang tc i skip line
      (trimSpace_ne_nil_of_startsWith line '#' _ (by decide) hc) hnf
      (startsWith_first_ne line '#' 'm' _ _ hc (by decide))
      (Or.inl (startsWith_trimSpace_first_ne line '#' '"' _ _ hc (by decide) (by decide)))
  · exact writeLine_plain e lang tc i skip line
      (trimSpace_ne_nil_of_startsWith line 'm' _ (by decide) hm)
      (startsWith_first_ne line 'm' '#' _ _ hm (by decide))
      (not_msgstr_of_sourceKind line hk)
      (Or.inl (startsWith_trimSpace_first_ne line 'm' '"' _ _ hm (by decide) (by decide)))
  · exact writeLine_plain e lang tc i skip line
      (trimSpace_ne_nil_of_startsWith line '"' _ (by decide) hq)
      (startsWith_first_ne line '"' '#' _ _ hq (by decide))
      (startsWith_first_ne line '"' 'm' _ _ hq (by decide))
      (Or.inr (foundMsgStr_sourceKind _ hk))

theorem preservedFrom_sublist (e : Entry) (lang : Str) (tc : Translator) (lines : List Str)
    (i : Nat) (skip : Bool) :
    List.Sublist (preservedFrom e i lines) (writeLines e lang tc i skip lines) := by
  induction lines generalizing i skip with
  | nil => exact List.Sublist.slnil
  | cons l lines ih =>
    rw [writeLines_cons, preservedFrom]
    by_cases hp : isPreserved (e.RawLines.take i).reverse l = true
    · rw [if_pos hp, writeLine_preserved e lang tc i skip l hp]
      exact List.Sublist.cons₂ l (ih (i + 1) skip)
    · rw [if_neg hp, List.nil_append]
      exact (ih (i + 1) _).trans (List.sublist_append_right _ _)

theorem flatten_sublist (xs : List Entry) (f g : Entry → List Str)
    (h : ∀ e, List.Sublist (f e) (g e)) :
    List.Sublist (xs.map f).flatten (xs.map g).flatten := by
  induction xs with
  | nil => exact List.Sublist.slnil
  | cons e xs ih =>
    simp only [List.map_cons, List.flatten_cons]
    exact List.Sublist.append (h e) ih

/-- What the writer writes for a raw line that does not start with `msgstr` does not
depend on the translation capability. -/
theorem writeLine_translator (e : Entry) (lang : Str) (tc tc2 : Translator) (i : Nat)
    (skip : Bool) (line : Str) (h : startsWith line "msgstr".toList = false) :
    writeLine e lang tc i skip line = writeLine e lang tc2 i skip line := by
  have h4 : startsWith line "msgstr \"".toList = false :=
    startsWith_mono_false line "msgstr".toList " \"".toList h
  have h5 : startsWith line "msgstr[".toList = false :=
    startsWith_mono_false line "msgstr".toList "[".toList h
  unfold writeLine
  simp only [h4, h5, Bool.false_and, Bool.false_eq_true, if_false]

/-- The value of `skipNextEmptyLine` never depends on the translation capability. -/
theorem writeLine_skip_translator (e : Entry) (lang : Str) (tc tc2 : Translator) (i : Nat)
    (skip : Bool) (line : Str) :
    (writeLine e lang tc i skip line).2 = (writeLine e lang tc2 i skip line).2 := by
  unfold writeLine
  simp only
  split_ifs <;> first | rfl | (split <;> rfl)

/-- C15. Verbatim preservation: the writer first writes the raw lines of the header
unchanged, then what it writes for each entry in order; for every entry the comment lines
other than `#,` lines, the `msgctxt`, `msgid` and `msgid_plural` lines and the quoted
continuation lines of these fields are written unchanged and in order, whether or not the
entry is translated; and what is written for a raw line that does not start with `msgstr`,
as well as the handling of blank lines, does not depend on the translation capability. -/
theorem verbatim_preservation (f : File) (lang : Str) (tc : Translator) :
    (WritePOFile f lang tc).take f.Header.RawLines.length = f.Header.RawLines ∧
    (WritePOFile f lang tc).drop f.Header.RawLines.length =
      (f.Entries.map (fun e => writeEntry e lang tc)).flatten ∧
    (∀ e : Entry, List.Sublist (preservedLines e) (writeEntry e lang tc)) ∧
    List.Sublist (f.Entries.map preservedLines).flatten
      ((WritePOFile f lang tc).drop f.Header.RawLines.length) ∧
    (∀ (tc2 : Translator) (e : Entry) (i : Nat) (skip : Bool) (line : Str),
      (startsWith line "msgstr".toList = false →
        writeLine e lang tc i skip line = writeLine e lang tc2 i skip line) ∧
      (writeLine e lang tc i skip line).2 = (writeLine e lang tc2 i skip line).2) := by
  have hsub : ∀ e : Entry, List.Sublist (preservedLines e) (writeEntry e lang tc) :=
    fun e => preservedFrom_sublist e lang tc e.RawLines 0 false
  have hdrop : (WritePOFile f lang tc).drop f.Header.RawLines.length =
      (f.Entries.map (fun e => writeEntry e lang tc)).flatten := by
    simp [WritePOFile]
  refine ⟨by simp [WritePOFile], hdrop, hsub, ?_, ?_⟩
  · rw [hdrop]
    exact flatten_sublist f.Entries preservedLines (fun e => writeEntry e lang tc) hsub
  · intro tc2 e i skip line
    exact ⟨writeLine_translator e lang tc tc2 i skip line,
      writeLine_skip_translator e lang tc tc2 i skip line⟩

/-- The lines kept of a fuzzy entry with a context, a two-line msgid and a two-line
msgstr. -/
theorem verbatim_preservation_witness :
    preservedLines
        { MsgContext := "menu".toList, MsgID := "Hello world".toList, MsgStr := "Salut".toList
          IsFuzzy := true
          RawLines := ["".toList, "#. note".toList, "#, fuzzy".toList, "msgctxt \"menu\"".toList,
            "msgid \"Hello \"".toList, "\"world\"".toList, "msgstr \"Sal\"".toList,
            "\"ut\"".toList] } =
      ["#. note".toList, "msgctxt \"menu\"".toList, "msgid \"Hello \"".toList,
        "\"world\"".toList] ∧
    writeEntry
        { MsgContext := "menu".toList, MsgID := "Hello world".toList, MsgStr := "Salut".toList
          IsFuzzy := true
          RawLines := ["".toList, "#. note".toList, "#, fuzzy".toList, "msgctxt \"menu\"".toList,
            "msgid \"Hello \"".toList, "\"world\"".toList, "msgstr \"Sal\"".toList,
            "\"ut\"".toList] }
        "fr".toList exampleTranslator =
      ["".toList, "#. note".toList, "msgctxt \"menu\"".toList, "msgid \"Hello \"".toList,
        "\"world\"".toList, "msgstr \"Hello world\"".toList] ∧
    List.Sublist
      (preservedLines
        { MsgContext := "menu".toList, MsgID := "Hello world".toList, MsgStr := "Salut".toList
          IsFuzzy := true
          RawLines := ["".toList, "#. note".toList, "#, fuzzy".toList, "msgctxt \"menu\"".toList,
            "msgid \"Hello \"".toList, "\"world\"".toList, "msgstr \"Sal\"".toList,
            "\"ut\"".toList] })
      (writeEntry
        { MsgContext := "menu".toList, MsgID := "Hello world".toList, MsgStr := "Salut".toList
          IsFuzzy := true
          RawLines := ["".toList, "#. note".toList, "#, fuzzy".toList, "msgctxt \"menu\"".toList,
            "msgid \"Hello \"".toList, "\"world\"".toList, "msgstr \"Sal\"".toList,
            "\"ut\"".toList] }
        "fr".toList exampleTranslator) :=
  ⟨by decide, by decide,
    (verbatim_preservation {} "fr".toList exampleTranslator).2.2.1 _⟩

/-! ### The fields of a parsed entry -/

theorem entryStep_field (acc : Entry × FieldKind) (l : Str)
    (hm : startsWith l "msg".toList = true) :
    entryStep acc l =
      (updateEntryField acc.1 (getMsgFieldType l) (extractQuotedText l), getMsgFieldType l) := by
  have hb := trimSpace_ne_nil_of_startsWith l 'm' _ (by decide) hm
  have hc : startsWith l "#".toList = false :=
    startsWith_first_ne l 'm' '#' _ _ hm (by decide)
  unfold entryStep
  rw [if_neg hb, if_neg (by rw [hc]; simp), if_pos hm]

theorem entryStep_cont (acc : Entry × FieldKind) (l : Str)
    (hq : startsWith l "\"".toList = true) :
    entryStep acc l = (appendToEntryField acc.1 acc.2 (extractQuotedText l), acc.2) := by
  have hb := trimSpace_ne_nil_of_startsWith l '"' _ (by decide) hq
  have hc : startsWith l "#".toList = false :=
    startsWith_first_ne l '"' '#' _ _ hq (by decide)
  have hm : startsWith l "msg".toList = false :=
    startsWith_first_ne l '"' 'm' _ _ hq (by decide)
  unfold entryStep
  rw [if_neg hb, if_neg (by rw [hc]; simp), if_neg (by rw [hm]; simp), if_pos hq]

/-- A line that is neither a field start nor a continuation line changes neither the
current field nor the texts of the entry. -/
theorem entryStep_other (acc : Entry × FieldKind) (l : Str)
    (hm : startsWith l "msg".toList = false) (hq : startsWith l "\"".toList = false) :
    (entryStep acc l).2 = acc.2 ∧
    (∀ k, scalarField k (entryStep acc l).1 = scalarField k acc.1) ∧
    (entryStep acc l).1.MsgStrPlural = acc.1.MsgStrPlural := by
  unfold entryStep
  simp only [hm, hq, Bool.false_eq_true, if_false]
  split_ifs <;> exact ⟨rfl, fun k => by cases k <;> rfl, rfl⟩

theorem scalarField_update (k k2 : FieldKind) (e : Entry) (v : Str)
    (hk : k = .msgctxt ∨ k = .msgid ∨ k = .msgid_plural ∨ k = .msgstr) :
    scalarField k (updateEntryField e k2 v) = if k2 = k then v else scalarField k e := by
  rcases hk with h | h | h | h <;> subst h <;> cases k2 <;> rfl

theorem appendToEntryField_plural (e : Entry) (v : Str) :
    appendToEntryField e .msgstr_plural v =
      { e with MsgStrPlural := appendToLast e.MsgStrPlural v } := by
  unfold appendToEntryField appendToLast
  simp only
  split <;> rename_i h <;> simp [h]

theorem scalarField_append (k f : FieldKind) (e : Entry) (v : Str)
    (hk : k = .msgctxt ∨ k = .msgid ∨ k = .msgid_plural ∨ k = .msgstr) :
    scalarField k (appendToEntryField e f v) =
      if f = k then scalarField k e ++ v else scalarField k e := by
  cases f
  case msgstr_plural =>
    rw [appendToEntryField_plural]
    rcases hk with h | h | h | h <;> subst h <;> rfl
  all_goals rcases hk with h | h | h | h <;> subst h <;> rfl

theorem plural_update (k2 : FieldKind) (e : Entry) (v : Str) :
    (updateEntryField e k2 v).MsgStrPlural =
      if k2 = .msgstr_plural then e.MsgStrPlural ++ [v] else e.MsgStrPlural := by
  cases k2 <;> rfl

theorem plural_append (f : FieldKind) (e : Entry) (v : Str) :
    (appendToEntryField e f v).MsgStrPlural =
      if f = .msgstr_plural then appendToLast e.MsgStrPlural v else e.MsgStrPlural := by
  cases f
  case msgstr_plural => rw [appendToEntryField_plural]; rfl
  all_goals rfl

theorem appendToLast_nil_right (l : List Str) : appendToLast l [] = l := by
  unfold appendToLast
  split
  · rename_i last h
    simp only [List.append_nil]
    exact List.dropLast_append_getLast? last h
  · rfl

theorem appendToLast_snoc (l : List Str) (x v : Str) :
    appendToLast (l ++ [x]) v = l ++ [x ++ v] := by
  simp [appendToLast]

theorem appendToLast_nil_left (v : Str) : appendToLast [] v = [] := rfl

theorem appendToLast_twice (l : List Str) (a b : Str) :
    appendToLast (appendToLast l a) b = appendToLast l (a ++ b) := by
  rcases List.eq_nil_or_concat l with h | ⟨l2, x, h⟩
  · subst h; rfl
  · subst h
    simp only [List.concat_eq_append]
    rw [appendToLast_snoc, appendToLast_snoc, appendToLast_snoc, List.append_assoc]

theorem fieldText_cons_of_not_field (k : FieldKind) (l : Str) (rest : List Str)
    (hm : startsWith l "msg".toList = false) : fieldText k (l :: rest) = fieldText k rest := by
  simp only [fieldText, hm, Bool.false_eq_true, false_and, if_false]
  cases fieldText k rest <;> rfl

/-- The text of a field with a single text after the loop of `parseEntries` has gone
through the raw lines `raw`, from any state of the loop. -/
theorem foldl_entryStep_scalar (k : FieldKind)
    (hk : k = .msgctxt ∨ k = .msgid ∨ k = .msgid_plural ∨ k = .msgstr)
    (raw : List Str) (acc : Entry × FieldKind) :
    scalarField k (raw.foldl entryStep acc).1 =
      (fieldText k raw).getD
        (if acc.2 = k then scalarField k acc.1 ++ contTexts raw else scalarField k acc.1) := by
  induction raw generalizing acc with
  | nil => simp [fieldText, contTexts]
  | cons l raw ih =>
    rw [List.foldl_cons, ih]
    by_cases hm : startsWith l "msg".toList = true
    · rw [entryStep_field acc l hm]
      simp only [fieldText, contTexts, hm, true_and, if_true, List.append_nil, ite_self]
      cases hft : fieldText k raw with
      | some v => rfl
      | none =>
        simp only [Option.getD_none, scalarField_update k _ _ _ hk]
        by_cases hkk : getMsgFieldType l = k
        · simp [hkk]
        · simp [hkk]
    · have hmf : startsWith l "msg".toList = false := by simpa using hm
      rw [fieldText_cons_of_not_field k l raw hmf]
      by_cases hq : startsWith l "\"".toList = true
      · rw [entryStep_cont acc l hq]
        simp only [contTexts, hmf, hq, Bool.false_eq_true, if_false, if_true,
          scalarField_append k _ _ _ hk]
        by_cases hkk : acc.2 = k
        · simp [hkk]
        · simp [hkk]
      · have hqf : startsWith l "\"".toList = false := by simpa using hq
        obtain ⟨h1, h2, _⟩ := entryStep_other acc l hmf hqf
        simp only [contTexts, hmf, hqf, Bool.false_eq_true, if_false, h1, h2]

theorem getMsgFieldType_plural_iff (l : Str) :
    getMsgFieldType l = .msgstr_plural ↔ startsWith l "msgstr[".toList = true := by
  constructor
  · intro h
    unfold getMsgFieldType at h
    split_ifs at h with h1 h2 h3 h4 h5
    exact h4
  · intro h
    obtain ⟨r, hr⟩ := startsWith_split l _ h
    subst hr
    simp only [String.toList, List.cons_append, List.nil_append]
    simp [getMsgFieldType, startsWith_cons_cons, startsWith_nil]

/-- The plural texts after the loop of `parseEntries` has gone through the raw lines
`raw`, from any state of the loop. -/
theorem foldl_entryStep_plural (raw : List Str) (acc : Entry × FieldKind) :
    (raw.foldl entryStep acc).1.MsgStrPlural =
      (if acc.2 = .msgstr_plural then appendToLast acc.1.MsgStrPlural (contTexts raw)
        else acc.1.MsgStrPlural) ++ pluralTexts raw := by
  induction raw generalizing acc with
  | nil => simp [pluralTexts, contTexts, appendToLast_nil_right]
  | cons l raw ih =>
    rw [List.foldl_cons, ih]
    by_cases hm : startsWith l "msg".toList = true
    · rw [entryStep_field acc l hm]
      simp only [contTexts, hm, if_true, appendToLast_nil_right, ite_self, plural_update]
      by_cases hp : startsWith l "msgstr[".toList = true
      · have hk := (getMsgFieldType_plural_iff l).mpr hp
        simp only [pluralTexts, hp, hk, if_true, appendToLast_snoc]
        simp
      · have hk : getMsgFieldType l ≠ .msgstr_plural :=
          fun h => hp ((getMsgFieldType_plural_iff l).mp h)
        have hpf : startsWith l "msgstr[".toList = false := by simpa using hp
        simp only [pluralTexts, hpf, hk, Bool.false_eq_true, if_false]
    · have hmf : startsWith l "msg".toList = false := by simpa using hm
      have hp : startsWith l "msgstr[".toList = false :=
        startsWith_mono_false l "msg".toList "str[".toList hmf
      by_cases hq : startsWith l "\"".toList = true
      · rw [entryStep_cont acc l hq]
        simp only [contTexts, pluralTexts, hmf, hq, hp, Bool.false_eq_true, if_false, if_true,
          plural_append]
        by_cases hkk : acc.2 = .msgstr_plural
        · simp [hkk, appendToLast_twice]
        · simp [hkk]
      · have hqf : startsWith l "\"".toList = false := by simpa using hq
        obtain ⟨h1, _, h3⟩ := entryStep_other acc l hmf hqf
        simp only [contTexts, pluralTexts, hmf, hqf, hp, Bool.false_eq_true, if_false, h1, h3]

theorem contTexts_noLeading (raw : List Str) (h : noLeadingContinuation raw = true) :
    contTexts raw = [] := by
  induction raw with
  | nil => rfl
  | cons l raw ih =>
    unfold noLeadingContinuation at h
    unfold contTexts
    split_ifs at h ⊢ with h1 h2
    · rfl
    · exact ih h

/-- The texts of the entry that the parser builds from raw lines that do not begin with
a continuation line. -/
theorem entryOf_fields (f0 : FieldKind) (raw : List Str)
    (hlead : noLeadingContinuation raw = true) (k : FieldKind)
    (hk : k = .msgctxt ∨ k = .msgid ∨ k = .msgid_plural ∨ k = .msgstr) :
    scalarField k (entryOf f0 raw) = (fieldText k raw).getD [] := by
  have h := foldl_entryStep_scalar k hk raw ({}, f0)
  have hc := contTexts_noLeading raw hlead
  have hs : scalarField k (entryOf f0 raw) = scalarField k (raw.foldl entryStep ({}, f0)).1 := by
    rcases hk with h | h | h | h <;> subst h <;> rfl
  have hz : scalarField k ({} : Entry) = [] := by
    rcases hk with h | h | h | h <;> subst h <;> rfl
  rw [hs, h, hc]
  simp only [hz, List.append_nil, ite_self]

theorem entryOf_plural (f0 : FieldKind) (raw : List Str) :
    (entryOf f0 raw).MsgStrPlural = pluralTexts raw := by
  have h := foldl_entryStep_plural raw ({}, f0)
  have hs : (entryOf f0 raw).MsgStrPlural = (raw.foldl entryStep ({}, f0)).1.MsgStrPlural := rfl
  rw [hs, h]
  have hz : ({} : Entry).MsgStrPlural = [] := rfl
  simp only [hz, appendToLast_nil_left, ite_self, List.nil_append]

/-- C14, amended. Field accumulation: for every entry returned by the parser whose raw
lines have no quoted continuation line before their first field-start line, each of
`MsgContext`, `MsgID`, `MsgIDPlural` and `MsgStr` is the quoted payload of the last
field-start line of its kind followed, in order, by the payloads of the continuation lines
that follow that line before the next field-start line (the empty text when no line has
that kind), and `MsgStrPlural` has one element per line that starts with `msgstr[`, the
k-th built in the same way from the k-th such line, without any use of the bracket
index. -/
theorem field_accumulation (lines : List Str) (e : Entry) (he : e ∈ parseEntries lines)
    (hlead : noLeadingContinuation e.RawLines = true) :
    e.MsgContext = (fieldText .msgctxt e.RawLines).getD [] ∧
    e.MsgID = (fieldText .msgid e.RawLines).getD [] ∧
    e.MsgIDPlural = (fieldText .msgid_plural e.RawLines).getD [] ∧
    e.MsgStr = (fieldText .msgstr e.RawLines).getD [] ∧
    e.MsgStrPlural = pluralTexts e.RawLines := by
  obtain ⟨f0, hf0⟩ := parseEntries_entryOf lines e he
  have h1 := entryOf_fields f0 e.RawLines hlead .msgctxt (Or.inl rfl)
  have h2 := entryOf_fields f0 e.RawLines hlead .msgid (Or.inr (Or.inl rfl))
  have h3 := entryOf_fields f0 e.RawLines hlead .msgid_plural (Or.inr (Or.inr (Or.inl rfl)))
  have h4 := entryOf_fields f0 e.RawLines hlead .msgstr (Or.inr (Or.inr (Or.inr rfl)))
  have h5 := entryOf_plural f0 e.RawLines
  rw [← hf0] at h1 h2 h3 h4 h5
  exact ⟨h1, h2, h3, h4, h5⟩

/-- An entry with a two-line msgid, a replaced msgstr and two plural lines whose bracket
indices are not in order. -/
theorem field_accumulation_witness :
    (parseEntries ["msgid \"Hello \"".toList, "\"world\"".toList, "msgstr \"x\"".toList,
        "msgstr \"Sal\"".toList, "\"ut\"".toList, "msgstr[5] \"a\"".toList, "\"b\"".toList,
        "msgstr[0] \"c\"".toList]).map
      (fun e => (e.MsgID, e.MsgStr, e.MsgStrPlural)) =
      [("Hello world".toList, "Salut".toList, ["ab".toList, "c".toList])] ∧
    (Entry.MsgStrPlural
        { MsgID := "Hello world".toList, MsgStr := "Salut".toList
          MsgStrPlural := ["ab".toList, "c".toList]
          RawLines := ["msgid \"Hello \"".toList, "\"world\"".toList, "msgstr \"x\"".toList,
            "msgstr \"Sal\"".toList, "\"ut\"".toList, "msgstr[5] \"a\"".toList, "\"b\"".toList,
            "msgstr[0] \"c\"".toList] }) =
      pluralTexts ["msgid \"Hello \"".toList, "\"world\"".toList, "msgstr \"x\"".toList,
        "msgstr \"Sal\"".toList, "\"ut\"".toList, "msgstr[5] \"a\"".toList, "\"b\"".toList,
        "msgstr[0] \"c\"".toList] :=
  ⟨by decide,
    (field_accumulation
      ["msgid \"Hello \"".toList, "\"world\"".toList, "msgstr \"x\"".toList,
        "msgstr \"Sal\"".toList, "\"ut\"".toList, "msgstr[5] \"a\"".toList, "\"b\"".toList,
        "msgstr[0] \"c\"".toList]
      { MsgID := "Hello world".toList, MsgStr := "Salut".toList
        MsgStrPlural := ["ab".toList, "c".toList]
        RawLines := ["msgid \"Hello \"".toList, "\"world\"".toList, "msgstr \"x\"".toList,
          "msgstr \"Sal\"".toList, "\"ut\"".toList, "msgstr[5] \"a\"".toList, "\"b\"".toList,
          "msgstr[0] \"c\"".toList] }
      (by decide) (by decide)).2.2.2.2⟩

/-- C14 as stated fails: the second entry block has no msgstr line, yet its `MsgStr` is
`x`, the payload of the continuation line at its start, because the field that was current
at the end of the first block is still current. -/
theorem field_accumulation_carry_over_counterexample :
    (parseEntries ["msgid \"a\"".toList, "msgstr \"b\"".toList, "".toList, "\"x\"".toList,
        "msgid \"c\"".toList]).map
      (fun e => (e.RawLines, e.MsgStr, fieldText .msgstr e.RawLines)) =
      [(["msgid \"a\"".toList, "msgstr \"b\"".toList], "b".toList, some "b".toList),
        (["".toList, "\"x\"".toList, "msgid \"c\"".toList], "x".toList, none)] := by
  decide

/-! ### Entries with plural msgstr lines only -/

theorem getMsgFieldType_eq_msgstr (l : Str) (h : getMsgFieldType l = .msgstr) :
    startsWith l "msgstr".toList = true ∧ startsWith l "msgstr[".toList = false := by
  unfold getMsgFieldType at h
  split_ifs at h with h1 h2 h3 h4 h5
  exact ⟨h5, by simpa using h4⟩

theorem fieldText_eq_none (k : FieldKind) (raw : List Str)
    (h : ∀ l ∈ raw, getMsgFieldType l ≠ k) : fieldText k raw = none := by
  induction raw with
  | nil => rfl
  | cons l raw ih =>
    have h1 := ih (fun x hx => h x (by simp [hx]))
    have h2 := h l (by simp)
    simp only [fieldText, h1, h2, and_false, if_false]

/-- C19, amended. Plural-only entries: every parsed entry that has no singular msgstr line
(no raw line that starts with `msgstr` other than the `msgstr[` lines) and no quoted
continuation line before its first field-start line has `MsgStr = ""`; when its `MsgID` or
`MsgIDPlural` is non-empty, every one of its `msgstr[N]` lines (with a closing bracket) is
replaced by a freshly translated field, whatever the existing plural forms are and whether
or not the entry is fuzzy. -/
theorem plural_only_entry_translated (lines : List Str) (e : Entry) (lang : Str)
    (tc : Translator) (he : e ∈ parseEntries lines)
    (hno : ∀ l ∈ e.RawLines, startsWith l "msgstr".toList = true →
      startsWith l "msgstr[".toList = true)
    (hlead : noLeadingContinuation e.RawLines = true) :
    e.MsgStr = [] ∧
    ((e.MsgID ≠ [] ∨ e.MsgIDPlural ≠ []) →
      ∀ (pre post : List Str) (line : Str) (stop : Nat),
        e.RawLines = pre ++ line :: post →
        startsWith line "msgstr[".toList = true → index line ']' = some stop →
        writeEntry e lang tc =
          writeLines e lang tc 0 false pre ++
          writeTranslatedString ("msgstr".toList ++ (line.take (stop + 1)).drop 6)
            (translateText
              (if startsWith line "msgstr[0]".toList = true then e.MsgID else e.MsgIDPlural)
              lang tc) line ++
          writeLines e lang tc (pre.length + 1) (writeSkip e lang tc 0 false pre) post) := by
  obtain ⟨f0, hf0⟩ := parseEntries_entryOf lines e he
  have hnone : fieldText .msgstr e.RawLines = none := by
    apply fieldText_eq_none
    intro l hl hk
    obtain ⟨h1, h2⟩ := getMsgFieldType_eq_msgstr l hk
    rw [hno l hl h1] at h2
    exact absurd h2 (by simp)
  have hStr : e.MsgStr = [] := by
    have h := entryOf_fields f0 e.RawLines hlead .msgstr (Or.inr (Or.inr (Or.inr rfl)))
    rw [← hf0, hnone] at h
    exact h
  refine ⟨hStr, ?_⟩
  intro hsrc pre post line stop hraw hpl hstop
  unfold writeEntry
  rw [hraw, writeLines_append, writeLines_cons,
    writeLine_plural e lang tc _ _ line stop (Or.inl hStr) hsrc hpl hstop]
  simp

/-- A plural entry whose plural forms are all filled and that is not fuzzy: both plural
lines are translated again. -/
theorem plural_only_entry_translated_witness :
    (parseEntries ["msgid \"one item\"".toList, "msgid_plural \"many items\"".toList,
        "msgstr[0] \"eins\"".toList, "msgstr[1] \"viele\"".toList]).map
      (fun e => (e.MsgStr, e.MsgStrPlural, e.IsFuzzy,
        writeEntry e "fr".toList exampleTranslator)) =
      [([], ["eins".toList, "viele".toList], false,
        ["msgid \"one item\"".toList, "msgid_plural \"many items\"".toList,
          "msgstr[0] \"un\"".toList, "msgstr[1] \"plusieurs\"".toList])] ∧
    (Entry.MsgStr
      { MsgID := "one item".toList, MsgIDPlural := "many items".toList
        MsgStrPlural := ["eins".toList, "viele".toList]
        RawLines := ["msgid \"one item\"".toList, "msgid_plural \"many items\"".toList,
          "msgstr[0] \"eins\"".toList, "msgstr[1] \"viele\"".toList] }) = [] :=
  ⟨by decide,
    (plural_only_entry_translated
      ["msgid \"one item\"".toList, "msgid_plural \"many items\"".toList,
        "msgstr[0] \"eins\"".toList, "msgstr[1] \"viele\"".toList]
      { MsgID := "one item".toList, MsgIDPlural := "many items".toList
        MsgStrPlural := ["eins".toList, "viele".toList]
        RawLines := ["msgid \"one item\"".toList, "msgid_plural \"many items\"".toList,
          "msgstr[0] \"eins\"".toList, "msgstr[1] \"viele\"".toList] }
      "fr".toList exampleTranslator (by decide) (by decide) (by decide)).1⟩

/-- C19 as stated fails: the second entry has plural msgstr lines only, but the
continuation line at its start gives it `MsgStr = "x"`, so it is not treated as needing
translation and its empty plural lines are written unchanged. -/
theorem plural_only_entry_carry_over_counterexample :
    (parseEntries ["msgid \"a\"".toList, "msgstr \"b\"".toList, "".toList, "\"x\"".toList,
        "msgid \"one item\"".toList, "msgid_plural \"many items\"".toList,
        "msgstr[0] \"\"".toList, "msgstr[1] \"\"".toList]).map
      (fun e => (e.MsgStr, e.IsFuzzy, writeEntry e "fr".toList exampleTranslator)) =
      [("b".toList, false, ["msgid \"a\"".toList, "msgstr \"b\"".toList]),
        ("x".toList, false,
          ["".toList, "\"x\"".toList, "msgid \"one item\"".toList,
            "msgid_plural \"many items\"".toList, "msgstr[0] \"\"".toList,
            "msgstr[1] \"\"".toList])] := by
  decide

end Po
